import Mathlib

/-!
Verification of the react-proptypes-generate inference and merge engine.

The development shallowly embeds the JavaScript sources:
a syntax-tree expression type, the PropertyRecord data model, the
explicit-declaration interpreter, the defaults inference, the merge
and sort pipeline, the completion pass, the component locator, and the
byte-range splicing and directory-scan helpers of the command line driver.
Helpers that live outside the given sources (the PropTypes bean, the
propTypesHelper and arrayUtils modules) are modelled from the spec and
marked as such in their doc comments.
-/

set_option maxHeartbeats 1000000

/-- A JavaScript expression tree, covering the node kinds inspected by the
engine: identifiers, literals, object and array literals, call and member
expressions, arrow functions, and an opaque constructor for everything else.
Member properties are identifier names, as in the declaration trees the
interpreter walks. -/
inductive Expr : Type where
  | ident (name : String)
  | numberLit (value : Int)
  | stringLit (value : String)
  | boolLit (value : Bool)
  | objectExpr (props : List (String × Expr))
  | arrayExpr (elems : List Expr)
  | callExpr (callee : Expr) (args : List Expr)
  | memberExpr (obj : Expr) (propName : String)
  | arrowFunctionExpr
  | otherExpr
deriving Repr

/-- Modelled from the spec: the PropTypes bean from beans/PropTypes, the
PropertyRecord data model.  A record carries the public property name, the
kind tag, the required flag, an optional rendered default value, an optional
destructuring binding identifier, the preserved literal-array expression for
oneOf, and the nested child records. -/
inductive PropType : Type where
  | mk (name : String) (type : String) (isRequired : Bool)
      (defaultValue : Option String) (id : Option String)
      (astNode : Option Expr) (childTypes : List PropType)
deriving Repr

def PropType.name : PropType → String
  | .mk v _ _ _ _ _ _ => v

def PropType.type : PropType → String
  | .mk _ v _ _ _ _ _ => v

def PropType.isRequired : PropType → Bool
  | .mk _ _ v _ _ _ _ => v

def PropType.defaultValue : PropType → Option String
  | .mk _ _ _ v _ _ _ => v

def PropType.id : PropType → Option String
  | .mk _ _ _ _ v _ _ => v

def PropType.astNode : PropType → Option Expr
  | .mk _ _ _ _ _ v _ => v

def PropType.childTypes : PropType → List PropType
  | .mk _ _ _ _ _ _ v => v

/-- A fresh record as built by the PropTypes bean constructor: kind any,
not required, no default, no binding, no children. -/
def PropType.fresh (name : String) : PropType :=
  .mk name "any" false none none none []

theorem PropType.ext_fields {a b : PropType}
    (h1 : a.name = b.name) (h2 : a.type = b.type) (h3 : a.isRequired = b.isRequired)
    (h4 : a.defaultValue = b.defaultValue) (h5 : a.id = b.id)
    (h6 : a.astNode = b.astNode) (h7 : a.childTypes = b.childTypes) : a = b := by
  cases a
  cases b
  simp_all [PropType.name, PropType.type, PropType.isRequired, PropType.defaultValue,
    PropType.id, PropType.astNode, PropType.childTypes]

def PropType.setType (p : PropType) (ty : String) : PropType :=
  .mk p.name ty p.isRequired p.defaultValue p.id p.astNode p.childTypes

def PropType.setRequired (p : PropType) : PropType :=
  .mk p.name p.type true p.defaultValue p.id p.astNode p.childTypes

def PropType.setChildTypes (p : PropType) (cs : List PropType) : PropType :=
  .mk p.name p.type p.isRequired p.defaultValue p.id p.astNode cs

def PropType.setAstNode (p : PropType) (e : Expr) : PropType :=
  .mk p.name p.type p.isRequired p.defaultValue p.id (some e) p.childTypes

/-- The base record built by the member-expression case of
findUpdateSpecialPropTypes, before any call in object position is handled:
the kind comes from an inner member or identifier object (unless it is any),
and the isRequired marker is read off the property name. -/
def memberBase (name : String) (obj : Expr) (propName : String) : PropType :=
  let p1 : PropType :=
    match obj with
    | .memberExpr _ innerProp =>
        if innerProp = "any" then PropType.fresh name
        else (PropType.fresh name).setType innerProp
    | .ident _ =>
        if propName = "any" then PropType.fresh name
        else (PropType.fresh name).setType propName
    | _ => PropType.fresh name
  if propName = "isRequired" then p1.setRequired else p1

/-- The kind update taken from the callee of a special-type call: a member
callee whose property is not any sets the kind to that property name. -/
def applyCalleeType (props : PropType) (callee : Expr) : PropType :=
  match callee with
  | .memberExpr _ cprop => if cprop = "any" then props else props.setType cprop
  | _ => props

mutual

/-- Embeds findUpdateSpecialPropTypes: classifies the value expression of one
declaration entry.  A call expression or a member expression yields a record;
anything else yields null (none).  The member case reads the base kind from
the object chain and the isRequired marker from the property name, then the
call case (directly, or via a call in member position) is finished by
applySpecialCall. -/
def findUpdateSpecialPropTypes (typeNode : Expr) (name : String) : Option PropType :=
  match typeNode with
  | .callExpr callee args => some (applySpecialCall (PropType.fresh name) callee args)
  | .memberExpr obj propName =>
      match obj with
      | .callExpr c cargs => some (applySpecialCall (memberBase name obj propName) c cargs)
      | _ => some (memberBase name obj propName)
  | _ => none

/-- Embeds the special-type handling of findUpdateSpecialPropTypes, entered
when callee and calleeParams are both present: the kind is taken from the
callee member name, an object-literal argument fills the children from its
properties, an array-literal argument is kept verbatim for oneOf and
classified elementwise (nulls filtered) otherwise, and a member-expression
argument contributes a single child. -/
def applySpecialCall (props : PropType) (callee : Expr) (args : List Expr) : PropType :=
  match args with
  | [] => props
  | cp :: _ =>
      let p3 : PropType := applyCalleeType props callee
      match cp with
      | .objectExpr ps => p3.setChildTypes ((findPropTypesInObjectProps ps).filterMap id)
      | .arrayExpr elems =>
          if p3.type = "oneOf" then p3.setAstNode (.arrayExpr elems)
          else p3.setChildTypes ((classifyElems elems).filterMap id)
      | .memberExpr o pn =>
          match findUpdateSpecialPropTypes (.memberExpr o pn) "" with
          | some ct => p3.setChildTypes [ct]
          | none => p3
      | _ => p3

/-- Elementwise classification of an array-literal argument, before the
null filter is applied. -/
def classifyElems (elems : List Expr) : List (Option PropType) :=
  match elems with
  | [] => []
  | e :: rest => findUpdateSpecialPropTypes e "" :: classifyElems rest

/-- Embeds the property loop of findPropTypesInObjectNode: every entry of the
object literal is classified and the result is pushed unfiltered. -/
def findPropTypesInObjectProps (ps : List (String × Expr)) : List (Option PropType) :=
  match ps with
  | [] => []
  | (k, v) :: rest => findUpdateSpecialPropTypes v k :: findPropTypesInObjectProps rest

end

/-- Embeds findPropTypesInObjectNode: on an object literal the entries are
classified one by one and pushed, nulls included; on anything else the
result is the empty list. -/
def findPropTypesInObjectNode (objectNode : Expr) : List (Option PropType) :=
  match objectNode with
  | .objectExpr ps => findPropTypesInObjectProps ps
  | _ => []

/-- The first option if present, otherwise the second. -/
def optOr {α : Type} (a b : Option α) : Option α :=
  match a with
  | some v => some v
  | none => b

/-- The union of two children lists keyed by name: entries of the second
list whose name already occurs in the first are dropped. -/
def unionByName (a b : List PropType) : List PropType :=
  a ++ b.filter (fun x => !(a.any (fun u => u.name == x.name)))

/-- Modelled from the spec: whether a record supplies kind and required
information to the merge.  A record carrying a rendered default value is a
defaults-source record, and the spec rules that type and required fields
never come from the defaults source; a record whose kind is still any
carries no type information, and a kind of any-inferable complexity never
overrides a kind already resolved by another source.  The defaults
inference produces exactly records of these two shapes: the rendered
default value is attached whenever the inferred kind is not any, and the
kind stays any otherwise. -/
def suppliesKind (c : PropType) : Bool :=
  c.defaultValue.isNone && !(c.type == "any")

/-- Modelled from the spec: the per-record merge of
propTypesHelper.customMergePropTypes (the utils/propTypesHelper module is not
among the given sources).  The record merged later carries the higher
priority: its kind and required flag win on conflict whenever it supplies
kind information, while a record that carries a default value or whose kind
is still any leaves the kind and required flag of the earlier record in
place (type and required fields never come from the defaults source); a
default value already supplied by a higher-priority source is kept and the
children lists are unioned keyed by name. -/
def mergeRecord (t c : PropType) : PropType :=
  .mk t.name
    (if suppliesKind c then c.type else t.type)
    (if suppliesKind c then c.isRequired else t.isRequired)
    (optOr t.defaultValue c.defaultValue)
    (optOr t.id c.id)
    (optOr t.astNode c.astNode)
    (unionByName t.childTypes c.childTypes)

/-- Merging one record into an accumulated list: the first record of the
same name is merged with it in place, and a record with a new name is
appended at the end. -/
def mergeInto : List PropType → PropType → List PropType
  | [], c => [c]
  | t :: ts, c => if t.name = c.name then mergeRecord t c :: ts else t :: mergeInto ts c

/-- Modelled from the spec: propTypesHelper.customMergePropTypes combines two
record lists keyed by name, the second list merged record by record into the
first. -/
def customMergePropTypes (total current : List PropType) : List PropType :=
  current.foldl mergeInto total

/-- The order in which the merge chains same-name records into one. -/
def chainMerge (r : PropType) (bs : List PropType) : PropType :=
  bs.foldl mergeRecord r

/-- The name-ascending order used for the final sort: lexicographic on the
character data of the name. -/
def nameLe (a b : PropType) : Prop := a.name.data ≤ b.name.data

instance : DecidableRel nameLe :=
  fun a b => inferInstanceAs (Decidable (a.name.data ≤ b.name.data))

instance : IsTotal PropType nameLe := ⟨fun a b => le_total a.name.data b.name.data⟩

theorem string_eq_of_data_eq {a b : String} (h : a.data = b.data) : a = b := by
  cases a
  cases b
  exact congrArg String.mk h

instance : IsTrans PropType nameLe := ⟨fun _ _ _ h1 h2 => le_trans h1 h2⟩

/-- Modelled from the spec: arrayUtils.sortByKey, a stable ascending sort of
the merged records by their name field. -/
def sortByKey (l : List PropType) : List PropType := l.insertionSort nameLe

/-- Embeds the merge step of findPropTypes: the three strategy result lists
(usage inference, defaults, explicit declaration, in the order of the
Promise.all array) are folded over customMergePropTypes starting from the
empty list, and the result is sorted by name.  The explicit declaration is
merged last, which gives it the highest priority. -/
def findPropTypes (usagePropTypes defaultPropTypes explicitPropTypes : List PropType) :
    List PropType :=
  sortByKey (customMergePropTypes
    (customMergePropTypes (customMergePropTypes [] usagePropTypes) defaultPropTypes)
    explicitPropTypes)

/-! Basic facts about the merge building blocks. -/

theorem optOr_some {α : Type} (v : α) (b : Option α) : optOr (some v) b = some v := rfl

theorem optOr_none_left {α : Type} (b : Option α) : optOr none b = b := rfl

theorem optOr_none_right {α : Type} (a : Option α) : optOr a none = a := by
  cases a <;> rfl

theorem optOr_self_absorb {α : Type} (a b : Option α) : optOr (optOr a b) b = optOr a b := by
  cases a <;> cases b <;> rfl

/-- The names of a record list, in order. -/
def namesOf (l : List PropType) : List String := l.map PropType.name

theorem namesOf_append (a b : List PropType) : namesOf (a ++ b) = namesOf a ++ namesOf b := by
  simp [namesOf]

theorem mem_namesOf {l : List PropType} {n : String} :
    n ∈ namesOf l ↔ ∃ p ∈ l, p.name = n := by
  simp [namesOf, List.mem_map]

theorem mergeRecord_name (t c : PropType) : (mergeRecord t c).name = t.name := rfl

theorem mergeRecord_type (t c : PropType) :
    (mergeRecord t c).type = if suppliesKind c then c.type else t.type := rfl

theorem mergeRecord_isRequired (t c : PropType) :
    (mergeRecord t c).isRequired =
      if suppliesKind c then c.isRequired else t.isRequired := rfl

theorem mergeRecord_defaultValue (t c : PropType) :
    (mergeRecord t c).defaultValue = optOr t.defaultValue c.defaultValue := rfl

theorem mergeRecord_id (t c : PropType) : (mergeRecord t c).id = optOr t.id c.id := rfl

theorem mergeRecord_astNode (t c : PropType) :
    (mergeRecord t c).astNode = optOr t.astNode c.astNode := rfl

theorem mergeRecord_childTypes (t c : PropType) :
    (mergeRecord t c).childTypes = unionByName t.childTypes c.childTypes := rfl

theorem namesOf_unionByName_left (a b : List PropType) {n : String}
    (h : n ∈ namesOf a) : n ∈ namesOf (unionByName a b) := by
  simp only [unionByName, namesOf_append]
  exact List.mem_append_left _ h

theorem namesOf_unionByName_right (a : List PropType) {b : List PropType} {x : PropType}
    (hx : x ∈ b) : x.name ∈ namesOf (unionByName a b) := by
  by_cases h : a.any (fun u => u.name == x.name)
  · simp only [List.any_eq_true, beq_iff_eq] at h
    obtain ⟨u, hu, hun⟩ := h
    exact namesOf_unionByName_left a b (mem_namesOf.mpr ⟨u, hu, hun⟩)
  · have hxf : x ∈ (b.filter (fun x => !(a.any (fun u => u.name == x.name)))) := by
      refine List.mem_filter.mpr ⟨hx, ?_⟩
      simp only [Bool.not_eq_true']
      exact Bool.of_not_eq_true h
    simp only [unionByName, namesOf_append]
    exact List.mem_append_right _ (mem_namesOf.mpr ⟨x, hxf, rfl⟩)

theorem unionByName_absorb {a b : List PropType}
    (h : ∀ x ∈ b, x.name ∈ namesOf a) : unionByName a b = a := by
  have hf : b.filter (fun x => !(a.any (fun u => u.name == x.name))) = [] := by
    refine List.filter_eq_nil_iff.mpr ?_
    intro x hx
    simp only [Bool.not_eq_true', Bool.not_eq_false]
    rcases mem_namesOf.mp (h x hx) with ⟨u, hu, hun⟩
    exact List.any_eq_true.mpr ⟨u, hu, beq_iff_eq.mpr hun⟩
  simp [unionByName, hf]

/-! Chained merging of same-name records, and its per-field behaviour. -/

theorem chainMerge_nil (r : PropType) : chainMerge r [] = r := rfl

theorem chainMerge_cons (r b : PropType) (bs : List PropType) :
    chainMerge r (b :: bs) = chainMerge (mergeRecord r b) bs := rfl

theorem chainMerge_name (bs : List PropType) : ∀ r, (chainMerge r bs).name = r.name := by
  induction bs with
  | nil => intro r; rfl
  | cons b bs ih =>
      intro r
      rw [chainMerge_cons, ih, mergeRecord_name]

/-- Left fold of the guarded kind/required selection over a chain of
same-name records: a record that supplies kind information overwrites the
accumulated value, every other record is skipped. -/
def accKind {α : Type} (f : PropType → α) (x : α) (l : List PropType) : α :=
  l.foldl (fun a c => if suppliesKind c then f c else a) x

theorem accKind_nil {α : Type} (f : PropType → α) (x : α) : accKind f x [] = x := rfl

theorem accKind_cons {α : Type} (f : PropType → α) (x : α) (c : PropType)
    (l : List PropType) :
    accKind f x (c :: l) = accKind f (if suppliesKind c then f c else x) l := rfl

theorem accKind_absorb {α : Type} (f : PropType → α) (l : List PropType) :
    ∀ x, accKind f (accKind f x l) l = accKind f x l := by
  induction l with
  | nil => intro x; rfl
  | cons c l ih =>
      intro x
      by_cases h : suppliesKind c = true
      · simp [accKind_cons, h]
      · simp only [Bool.not_eq_true] at h
        simp only [accKind_cons, h, Bool.false_eq_true, if_false]
        exact ih x

theorem accKind_seed_absorb {α : Type} (f : PropType → α) (b : PropType)
    (rest : List PropType) :
    accKind f (if suppliesKind b then f b else accKind f (f b) rest) rest
      = accKind f (f b) rest := by
  by_cases h : suppliesKind b = true
  · simp [h]
  · simp only [Bool.not_eq_true] at h
    simp only [h, Bool.false_eq_true, if_false]
    exact accKind_absorb f rest (f b)

theorem chainMerge_type (bs : List PropType) :
    ∀ r, (chainMerge r bs).type = accKind PropType.type r.type bs := by
  induction bs with
  | nil => intro r; rfl
  | cons b bs ih =>
      intro r
      rw [chainMerge_cons, ih, accKind_cons, mergeRecord_type]

theorem chainMerge_isRequired (bs : List PropType) :
    ∀ r, (chainMerge r bs).isRequired = accKind PropType.isRequired r.isRequired bs := by
  induction bs with
  | nil => intro r; rfl
  | cons b bs ih =>
      intro r
      rw [chainMerge_cons, ih, accKind_cons, mergeRecord_isRequired]

/-- Left fold of optOr over a list of options. -/
def accOr {α : Type} (x : Option α) (l : List (Option α)) : Option α :=
  l.foldl optOr x

theorem accOr_nil {α : Type} (x : Option α) : accOr x [] = x := rfl

theorem accOr_cons {α : Type} (x y : Option α) (l : List (Option α)) :
    accOr x (y :: l) = accOr (optOr x y) l := rfl

theorem accOr_some {α : Type} (l : List (Option α)) :
    ∀ (v : α), accOr (some v) l = some v := by
  induction l with
  | nil => intro v; rfl
  | cons y l ih => intro v; rw [accOr_cons, optOr_some, ih]

theorem accOr_eq_none_iff {α : Type} (l : List (Option α)) :
    ∀ x : Option α, accOr x l = none ↔ x = none ∧ ∀ y ∈ l, y = none := by
  induction l with
  | nil => intro x; simp [accOr_nil]
  | cons y l ih =>
      intro x
      rw [accOr_cons, ih]
      cases x with
      | some v => simp [optOr_some]
      | none =>
          simp only [optOr_none_left, List.mem_cons, true_and]
          constructor
          · rintro ⟨hy, hl⟩
            intro z hz
            rcases hz with rfl | hz
            · exact hy
            · exact hl z hz
          · intro h
            exact ⟨h y (Or.inl rfl), fun z hz => h z (Or.inr hz)⟩

theorem accOr_absorb {α : Type} (x : Option α) (l : List (Option α)) :
    accOr (accOr x l) l = accOr x l := by
  cases h : accOr x l with
  | some v => exact accOr_some l v
  | none =>
      rcases (accOr_eq_none_iff l x).mp h with ⟨-, hall⟩
      exact (accOr_eq_none_iff l none).mpr ⟨rfl, hall⟩

theorem optOr_accOr_absorb {α : Type} (a : Option α) (l : List (Option α)) :
    accOr (optOr (accOr a l) a) l = accOr a l := by
  cases a with
  | some v => rw [accOr_some, optOr_some, accOr_some]
  | none => rw [optOr_none_right, accOr_absorb]

theorem chainMerge_defaultValue (bs : List PropType) :
    ∀ r, (chainMerge r bs).defaultValue =
      accOr r.defaultValue (bs.map PropType.defaultValue) := by
  induction bs with
  | nil => intro r; rfl
  | cons b bs ih =>
      intro r
      rw [chainMerge_cons, ih, List.map_cons, accOr_cons, mergeRecord_defaultValue]

theorem chainMerge_id (bs : List PropType) :
    ∀ r, (chainMerge r bs).id = accOr r.id (bs.map PropType.id) := by
  induction bs with
  | nil => intro r; rfl
  | cons b bs ih =>
      intro r
      rw [chainMerge_cons, ih, List.map_cons, accOr_cons, mergeRecord_id]

theorem chainMerge_astNode (bs : List PropType) :
    ∀ r, (chainMerge r bs).astNode = accOr r.astNode (bs.map PropType.astNode) := by
  induction bs with
  | nil => intro r; rfl
  | cons b bs ih =>
      intro r
      rw [chainMerge_cons, ih, List.map_cons, accOr_cons, mergeRecord_astNode]

/-- Left fold of unionByName over a list of children lists. -/
def accUnion (c : List PropType) (L : List (List PropType)) : List PropType :=
  L.foldl unionByName c

theorem accUnion_nil (c : List PropType) : accUnion c [] = c := rfl

theorem accUnion_cons (c B : List PropType) (L : List (List PropType)) :
    accUnion c (B :: L) = accUnion (unionByName c B) L := rfl

theorem chainMerge_childTypes (bs : List PropType) :
    ∀ r, (chainMerge r bs).childTypes =
      accUnion r.childTypes (bs.map PropType.childTypes) := by
  induction bs with
  | nil => intro r; rfl
  | cons b bs ih =>
      intro r
      rw [chainMerge_cons, ih, List.map_cons, accUnion_cons, mergeRecord_childTypes]

theorem namesOf_accUnion_mono (L : List (List PropType)) :
    ∀ c, ∀ n ∈ namesOf c, n ∈ namesOf (accUnion c L) := by
  induction L with
  | nil => intro c n hn; exact hn
  | cons B L ih =>
      intro c n hn
      rw [accUnion_cons]
      exact ih (unionByName c B) n (namesOf_unionByName_left c B hn)

theorem accUnion_absorb (L : List (List PropType)) :
    ∀ c, accUnion (accUnion c L) L = accUnion c L := by
  induction L with
  | nil => intro c; rfl
  | cons B L ih =>
      intro c
      rw [accUnion_cons, accUnion_cons]
      have habs : unionByName (accUnion (unionByName c B) L) B
          = accUnion (unionByName c B) L := by
        refine unionByName_absorb fun x hx => ?_
        exact namesOf_accUnion_mono L (unionByName c B) x.name
          (namesOf_unionByName_right c hx)
      rw [habs, ih]

theorem unionByName_accUnion_absorb (cb : List PropType) (L : List (List PropType)) :
    accUnion (unionByName (accUnion cb L) cb) L = accUnion cb L := by
  have habs : unionByName (accUnion cb L) cb = accUnion cb L := by
    refine unionByName_absorb fun x hx => ?_
    exact namesOf_accUnion_mono L cb x.name (mem_namesOf.mpr ⟨x, hx, rfl⟩)
  rw [habs, accUnion_absorb]

/-- Replaying the same chain of same-name records a second time does not
change the merged record. -/
theorem chainMerge_absorb (x : PropType) (bs : List PropType) :
    chainMerge (chainMerge x bs) bs = chainMerge x bs := by
  refine PropType.ext_fields ?_ ?_ ?_ ?_ ?_ ?_ ?_
  · rw [chainMerge_name, chainMerge_name]
  · simp only [chainMerge_type]
    exact accKind_absorb PropType.type bs x.type
  · simp only [chainMerge_isRequired]
    exact accKind_absorb PropType.isRequired bs x.isRequired
  · rw [chainMerge_defaultValue, chainMerge_defaultValue, accOr_absorb]
  · rw [chainMerge_id, chainMerge_id, accOr_absorb]
  · rw [chainMerge_astNode, chainMerge_astNode, accOr_absorb]
  · rw [chainMerge_childTypes, chainMerge_childTypes, accUnion_absorb]

/-- Re-merging the seed record of a chain into the chained record, followed
by a replay of the chain, does not change the merged record. -/
theorem chainMerge_seed_absorb (b : PropType) (rest : List PropType) :
    chainMerge (mergeRecord (chainMerge b rest) b) rest = chainMerge b rest := by
  refine PropType.ext_fields ?_ ?_ ?_ ?_ ?_ ?_ ?_
  · simp only [chainMerge_name, mergeRecord_name]
  · simp only [chainMerge_type, mergeRecord_type]
    exact accKind_seed_absorb PropType.type b rest
  · simp only [chainMerge_isRequired, mergeRecord_isRequired]
    exact accKind_seed_absorb PropType.isRequired b rest
  · simp only [chainMerge_defaultValue, mergeRecord_defaultValue]
    exact optOr_accOr_absorb _ _
  · simp only [chainMerge_id, mergeRecord_id]
    exact optOr_accOr_absorb _ _
  · simp only [chainMerge_astNode, mergeRecord_astNode]
    exact optOr_accOr_absorb _ _
  · simp only [chainMerge_childTypes, mergeRecord_childTypes]
    exact unionByName_accUnion_absorb _ _

/-! Structure of the merge fold: the head record of the accumulator absorbs
exactly the same-name records of the incoming list, and the rest of the
incoming list is folded into the tail. -/

theorem customMerge_nil_list (T : List PropType) : customMergePropTypes T [] = T := rfl

theorem customMerge_cons (T : List PropType) (b : PropType) (L : List PropType) :
    customMergePropTypes T (b :: L) = customMergePropTypes (mergeInto T b) L := rfl

theorem customMerge_append (T : List PropType) (a b : List PropType) :
    customMergePropTypes (customMergePropTypes T a) b = customMergePropTypes T (a ++ b) := by
  simp [customMergePropTypes, List.foldl_append]

theorem customMerge_cons_split (L : List PropType) :
    ∀ (q : PropType) (Q : List PropType),
    customMergePropTypes (q :: Q) L =
      chainMerge q (L.filter fun b => b.name == q.name) ::
        customMergePropTypes Q (L.filter fun b => !(b.name == q.name)) := by
  induction L with
  | nil => intro q Q; rfl
  | cons b L ih =>
      intro q Q
      rw [customMerge_cons]
      by_cases hqb : q.name = b.name
      · have hm : mergeInto (q :: Q) b = mergeRecord q b :: Q := by
          simp [mergeInto, hqb]
        rw [hm, ih (mergeRecord q b) Q]
        simp only [mergeRecord_name]
        have hb : (b.name == q.name) = true := beq_iff_eq.mpr hqb.symm
        rw [List.filter_cons, List.filter_cons, hb]
        simp [chainMerge_cons]
      · have hm : mergeInto (q :: Q) b = q :: mergeInto Q b := by
          simp [mergeInto, hqb]
        rw [hm, ih q (mergeInto Q b)]
        have hb : (b.name == q.name) = false := by
          simp only [beq_eq_false_iff_ne, ne_eq]
          exact fun h => hqb h.symm
        rw [List.filter_cons, List.filter_cons, hb]
        simp [customMerge_cons]

theorem customMerge_nil_cons (b : PropType) (L : List PropType) :
    customMergePropTypes [] (b :: L) = customMergePropTypes [b] L := rfl

/-- Replaying the merge of a list over the result of merging it into the
empty accumulator changes nothing (bounded form for the induction). -/
theorem customMerge_replay_nil :
    ∀ (n : Nat) (L : List PropType), L.length ≤ n →
    customMergePropTypes (customMergePropTypes [] L) L = customMergePropTypes [] L := by
  intro n
  induction n with
  | zero =>
      intro L hL
      cases L with
      | nil => rfl
      | cons b L' => simp at hL
  | succ n ih =>
      intro L hL
      cases L with
      | nil => rfl
      | cons b L' =>
          have hP : customMergePropTypes [] (b :: L') =
              chainMerge b (L'.filter fun x => x.name == b.name) ::
                customMergePropTypes [] (L'.filter fun x => !(x.name == b.name)) := by
            rw [customMerge_nil_cons, customMerge_cons_split]
          rw [hP, customMerge_cons]
          have hm : mergeInto
              (chainMerge b (L'.filter fun x => x.name == b.name) ::
                customMergePropTypes [] (L'.filter fun x => !(x.name == b.name))) b =
              mergeRecord (chainMerge b (L'.filter fun x => x.name == b.name)) b ::
                customMergePropTypes [] (L'.filter fun x => !(x.name == b.name)) := by
            simp [mergeInto, chainMerge_name]
          rw [hm, customMerge_cons_split]
          simp only [mergeRecord_name, chainMerge_name]
          rw [chainMerge_seed_absorb]
          have hlen : (L'.filter fun x => !(x.name == b.name)).length ≤ n :=
            le_trans (List.length_filter_le _ _) (Nat.lt_succ_iff.mp (Nat.lt_of_lt_of_le
              (Nat.lt_succ_of_le le_rfl) hL))
          rw [ih _ hlen]

/-- Replaying the merge of the same incoming list a second time never
changes the merged result. -/
theorem customMerge_replay (C : List PropType) :
    ∀ L : List PropType,
    customMergePropTypes (customMergePropTypes C L) L = customMergePropTypes C L := by
  induction C with
  | nil => intro L; exact customMerge_replay_nil L.length L le_rfl
  | cons c C' ih =>
      intro L
      rw [customMerge_cons_split L c C', customMerge_cons_split]
      simp only [chainMerge_name]
      rw [chainMerge_absorb, ih]

/-! The interpreter never supplies a default value: explicit-declaration
records always carry defaultValue none. -/

theorem memberBase_defaultValue (name : String) (obj : Expr) (propName : String) :
    (memberBase name obj propName).defaultValue = none := by
  unfold memberBase
  cases obj <;> dsimp only <;> split <;>
    first
    | rfl
    | (split <;> rfl)

theorem applyCalleeType_defaultValue (props : PropType) (callee : Expr) :
    (applyCalleeType props callee).defaultValue = props.defaultValue := by
  unfold applyCalleeType
  cases callee <;> dsimp only <;> first | rfl | (split <;> rfl)

theorem applySpecialCall_defaultValue (props : PropType) (callee : Expr) (args : List Expr) :
    (applySpecialCall props callee args).defaultValue = props.defaultValue := by
  cases args with
  | nil => rfl
  | cons cp rest =>
      have hp3 : (applyCalleeType props callee).defaultValue = props.defaultValue :=
        applyCalleeType_defaultValue props callee
      cases cp <;>
        simp only [applySpecialCall] <;>
        first
        | exact hp3
        | (split <;> simp [PropType.setChildTypes, PropType.setAstNode,
            PropType.defaultValue, applyCalleeType_defaultValue] <;>
            (cases h : applyCalleeType props callee <;> simp_all [PropType.defaultValue]))

theorem findUpdateSpecialPropTypes_defaultValue (t : Expr) (nm : String) (p : PropType)
    (h : findUpdateSpecialPropTypes t nm = some p) : p.defaultValue = none := by
  cases t with
  | callExpr callee args =>
      simp only [findUpdateSpecialPropTypes] at h
      cases h
      rw [applySpecialCall_defaultValue]
      rfl
  | memberExpr obj propName =>
      cases obj <;> simp only [findUpdateSpecialPropTypes] at h <;> cases h <;>
        first
        | exact memberBase_defaultValue ..
        | (rw [applySpecialCall_defaultValue]; exact memberBase_defaultValue ..)
  | ident v => simp [findUpdateSpecialPropTypes] at h
  | numberLit v => simp [findUpdateSpecialPropTypes] at h
  | stringLit v => simp [findUpdateSpecialPropTypes] at h
  | boolLit v => simp [findUpdateSpecialPropTypes] at h
  | objectExpr ps => simp [findUpdateSpecialPropTypes] at h
  | arrayExpr es => simp [findUpdateSpecialPropTypes] at h
  | arrowFunctionExpr => simp [findUpdateSpecialPropTypes] at h
  | otherExpr => simp [findUpdateSpecialPropTypes] at h

/-! Finding the merged record of one name inside the merge of a list. -/

theorem filter_of_filter_ne (m ν : String) (hmν : m ≠ ν) (L : List PropType) :
    (L.filter fun x => !(x.name == m)).filter (fun x => x.name == ν) =
      L.filter (fun x => x.name == ν) := by
  induction L with
  | nil => rfl
  | cons b L ih =>
      by_cases hb : b.name = ν
      · have h1 : (b.name == ν) = true := beq_iff_eq.mpr hb
        have h2 : (b.name == m) = false := by
          refine beq_eq_false_iff_ne.mpr ?_
          rw [hb]
          exact fun h => hmν h.symm
        simp [List.filter_cons, h1, h2, ih]
      · have h1 : (b.name == ν) = false := beq_eq_false_iff_ne.mpr hb
        by_cases h2 : b.name = m
        · simp [List.filter_cons, h1, beq_iff_eq.mpr h2, ih]
        · simp [List.filter_cons, h1, beq_eq_false_iff_ne.mpr h2, ih]

theorem find?_name_cons_pos (ν : String) {a : PropType} (l : List PropType)
    (h : a.name = ν) : (a :: l).find? (fun p => p.name == ν) = some a := by
  simp [List.find?, h]

theorem find?_name_cons_neg (ν : String) {a : PropType} (l : List PropType)
    (h : ¬ a.name = ν) :
    (a :: l).find? (fun p => p.name == ν) = l.find? (fun p => p.name == ν) := by
  simp [List.find?, beq_eq_false_iff_ne.mpr h]

theorem customMerge_nil_find (ν : String) :
    ∀ (n : Nat) (L : List PropType), L.length ≤ n →
    (customMergePropTypes [] L).find? (fun p => p.name == ν) =
      match L.filter (fun p => p.name == ν) with
      | [] => none
      | b :: bs => some (chainMerge b bs) := by
  intro n
  induction n with
  | zero =>
      intro L hL
      cases L with
      | nil => rfl
      | cons b L' => simp at hL
  | succ n ih =>
      intro L hL
      cases L with
      | nil => rfl
      | cons b L' =>
          have hP : customMergePropTypes [] (b :: L') =
              chainMerge b (L'.filter fun x => x.name == b.name) ::
                customMergePropTypes [] (L'.filter fun x => !(x.name == b.name)) := by
            rw [customMerge_nil_cons, customMerge_cons_split]
          rw [hP]
          by_cases hν : b.name = ν
          · rw [find?_name_cons_pos ν _ (by rw [chainMerge_name]; exact hν)]
            have hfb : (b.name == ν) = true := beq_iff_eq.mpr hν
            rw [List.filter_cons, hfb]
            simp only [if_true]
            subst hν
            rfl
          · rw [find?_name_cons_neg ν _ (by rw [chainMerge_name]; exact hν)]
            have hlen : (L'.filter fun x => !(x.name == b.name)).length ≤ n :=
              le_trans (List.length_filter_le _ _) (Nat.succ_le_succ_iff.mp hL)
            rw [ih _ hlen]
            have hfb : (b.name == ν) = false := beq_eq_false_iff_ne.mpr hν
            rw [List.filter_cons, hfb]
            simp only [if_false, Bool.false_eq_true]
            rw [filter_of_filter_ne b.name ν hν]

theorem find?_eq_none_filter {l : List PropType} {p : PropType → Bool}
    (h : l.find? p = none) : l.filter p = [] := by
  refine List.filter_eq_nil_iff.mpr ?_
  intro x hx
  exact by simpa using List.find?_eq_none.mp h x hx

theorem find?_nodup_filter {l : List PropType} {ν : String} {x : PropType}
    (hnd : (namesOf l).Nodup) (h : l.find? (fun p => p.name == ν) = some x) :
    l.filter (fun p => p.name == ν) = [x] := by
  induction l with
  | nil => simp at h
  | cons t ts ih =>
      have hnd' : t.name ∉ namesOf ts ∧ (namesOf ts).Nodup := by
        simpa [namesOf] using hnd
      by_cases ht : t.name = ν
      · have hb : (t.name == ν) = true := beq_iff_eq.mpr ht
        rw [find?_name_cons_pos ν _ ht] at h
        cases h
        rw [List.filter_cons, hb]
        simp only [if_true]
        have : ts.filter (fun p => p.name == ν) = [] := by
          refine List.filter_eq_nil_iff.mpr ?_
          intro y hy hyb
          have : y.name = ν := by simpa using hyb
          exact hnd'.1 (mem_namesOf.mpr ⟨y, hy, this.trans ht.symm⟩)
        rw [this]
      · have hb : (t.name == ν) = false := beq_eq_false_iff_ne.mpr ht
        rw [find?_name_cons_neg ν _ ht] at h
        rw [List.filter_cons, hb]
        simp only [if_false, Bool.false_eq_true]
        exact ih hnd'.2 h

theorem namesOf_mergeInto (b : PropType) :
    ∀ C : List PropType, namesOf (mergeInto C b) =
      if b.name ∈ namesOf C then namesOf C else namesOf C ++ [b.name] := by
  intro C
  induction C with
  | nil => simp [mergeInto, namesOf]
  | cons t ts ih =>
      by_cases ht : t.name = b.name
      · have : mergeInto (t :: ts) b = mergeRecord t b :: ts := by simp [mergeInto, ht]
        rw [this]
        have hmem : b.name ∈ namesOf (t :: ts) := by
          simp [namesOf, ← ht]
        rw [if_pos hmem]
        simp [namesOf, mergeRecord_name, ht]
      · have : mergeInto (t :: ts) b = t :: mergeInto ts b := by simp [mergeInto, ht]
        rw [this]
        have hcons : namesOf (t :: mergeInto ts b) = t.name :: namesOf (mergeInto ts b) := by
          simp [namesOf]
        rw [hcons, ih]
        by_cases hm : b.name ∈ namesOf ts
        · have hmem2 : b.name ∈ namesOf (t :: ts) := by
            simp only [namesOf, List.map_cons, List.mem_cons]
            exact Or.inr (by simpa [namesOf] using hm)
          rw [if_pos hm, if_pos hmem2]
          simp [namesOf]
        · have : b.name ∉ namesOf (t :: ts) := by
            simp only [namesOf, List.map_cons, List.mem_cons]
            push_neg
            exact ⟨fun h => ht h.symm, by simpa [namesOf] using hm⟩
          rw [if_neg hm, if_neg this]
          simp [namesOf]

theorem nodup_namesOf_mergeInto {C : List PropType} (b : PropType)
    (h : (namesOf C).Nodup) : (namesOf (mergeInto C b)).Nodup := by
  rw [namesOf_mergeInto]
  by_cases hm : b.name ∈ namesOf C
  · rw [if_pos hm]; exact h
  · rw [if_neg hm]
    simp [List.nodup_append, h, hm]

theorem nodup_namesOf_customMerge (L : List PropType) :
    ∀ C : List PropType, (namesOf C).Nodup →
      (namesOf (customMergePropTypes C L)).Nodup := by
  induction L with
  | nil => intro C h; exact h
  | cons b L ih =>
      intro C h
      rw [customMerge_cons]
      exact ih _ (nodup_namesOf_mergeInto b h)

theorem eq_of_mem_nodup_names :
    ∀ (l : List PropType), (namesOf l).Nodup →
      ∀ {a b : PropType}, a ∈ l → b ∈ l → a.name = b.name → a = b := by
  intro l
  induction l with
  | nil => intro _ a b ha; simp at ha
  | cons t ts ih =>
      intro hnd a b ha hb hab
      have hnd' : t.name ∉ namesOf ts ∧ (namesOf ts).Nodup := by
        simpa [namesOf] using hnd
      rcases List.mem_cons.mp ha with rfl | ha' <;>
        rcases List.mem_cons.mp hb with rfl | hb'
      · rfl
      · exact absurd (mem_namesOf.mpr ⟨b, hb', hab.symm⟩) hnd'.1
      · exact absurd (mem_namesOf.mpr ⟨a, ha', hab⟩) hnd'.1
      · exact ih hnd'.2 ha' hb' hab

/-! Merging lists whose names never collide is concatenation, and sorted
lists with distinct names are determined by their multiset of records. -/

theorem mergeInto_append_of_not_mem (b : PropType) :
    ∀ C : List PropType, b.name ∉ namesOf C → mergeInto C b = C ++ [b] := by
  intro C
  induction C with
  | nil => intro _; rfl
  | cons t ts ih =>
      intro h
      have ht : ¬ t.name = b.name := by
        intro he
        exact h (by simp [namesOf, he])
      have hts : b.name ∉ namesOf ts := fun hm => h (by simp [namesOf] at hm ⊢; exact Or.inr hm)
      simp [mergeInto, ht, ih hts]

theorem customMerge_eq_append_of_nodup :
    ∀ (L C : List PropType), (namesOf (C ++ L)).Nodup →
      customMergePropTypes C L = C ++ L := by
  intro L
  induction L with
  | nil => intro C _; simp [customMerge_nil_list]
  | cons b L' ih =>
      intro C h
      have hb : b.name ∉ namesOf C := by
        rw [namesOf_append] at h
        have hdis := (List.nodup_append.mp h).2.2
        intro hmem
        exact hdis hmem (by simp [namesOf])
      rw [customMerge_cons, mergeInto_append_of_not_mem b C hb]
      have hassoc : (C ++ [b]) ++ L' = C ++ (b :: L') := by simp
      have h2 : (namesOf ((C ++ [b]) ++ L')).Nodup := by rw [hassoc]; exact h
      rw [ih (C ++ [b]) h2, hassoc]

theorem sortByKey_sorted (l : List PropType) : (sortByKey l).Sorted nameLe :=
  List.sorted_insertionSort nameLe l

theorem sortByKey_perm (l : List PropType) : (sortByKey l).Perm l :=
  List.perm_insertionSort nameLe l

theorem sorted_nodup_perm_eq :
    ∀ (l₁ l₂ : List PropType), l₁.Perm l₂ → l₁.Sorted nameLe → l₂.Sorted nameLe →
      (namesOf l₁).Nodup → l₁ = l₂ := by
  intro l₁
  induction l₁ with
  | nil =>
      intro l₂ hp _ _ _
      exact (hp.symm.eq_nil).symm
  | cons a t₁ ih =>
      intro l₂ hp hs₁ hs₂ hnd
      cases l₂ with
      | nil => exact absurd hp.eq_nil (by simp)
      | cons b t₂ =>
          by_cases hab : a = b
          · subst hab
            have hpt : t₁.Perm t₂ := hp.cons_inv
            have hnd' : (namesOf t₁).Nodup := by
              simp only [namesOf, List.map_cons] at hnd
              exact hnd.of_cons
            rw [ih t₂ hpt (List.sorted_cons.mp hs₁).2 (List.sorted_cons.mp hs₂).2 hnd']
          · exfalso
            have ha2 : a ∈ b :: t₂ := hp.subset (by simp)
            have hat2 : a ∈ t₂ := by
              rcases List.mem_cons.mp ha2 with h | h
              · exact absurd h hab
              · exact h
            have hb1 : b ∈ a :: t₁ := hp.symm.subset (by simp)
            have hbt1 : b ∈ t₁ := by
              rcases List.mem_cons.mp hb1 with h | h
              · exact absurd h.symm hab
              · exact h
            have h1 : nameLe a b := List.rel_of_sorted_cons hs₁ b hbt1
            have h2 : nameLe b a := List.rel_of_sorted_cons hs₂ a hat2
            have hname : a.name = b.name := string_eq_of_data_eq (le_antisymm h1 h2)
            have hnd₂ : (namesOf (b :: t₂)).Nodup :=
              ((hp.map PropType.name).nodup_iff).mp hnd
            have : b.name ∉ namesOf t₂ := by
              simp only [namesOf, List.map_cons] at hnd₂
              exact (List.nodup_cons.mp hnd₂).1
            exact this (mem_namesOf.mpr ⟨a, hat2, hname⟩)

/-! Membership facts about the interpreter output. -/

theorem mem_findPropTypesInObjectProps :
    ∀ (ps : List (String × Expr)) (o : Option PropType),
      o ∈ findPropTypesInObjectProps ps → ∃ k v, findUpdateSpecialPropTypes v k = o := by
  intro ps
  induction ps with
  | nil => intro o h; simp [findPropTypesInObjectProps] at h
  | cons kv rest ih =>
      intro o h
      obtain ⟨k, v⟩ := kv
      rw [findPropTypesInObjectProps] at h
      rcases List.mem_cons.mp h with rfl | h'
      · exact ⟨k, v, rfl⟩
      · exact ih o h'

theorem mem_findPropTypesInObjectNode {decl : Expr} {o : Option PropType}
    (h : o ∈ findPropTypesInObjectNode decl) :
    ∃ k v, findUpdateSpecialPropTypes v k = o := by
  cases decl <;> simp only [findPropTypesInObjectNode] at h <;>
    first
    | exact mem_findPropTypesInObjectProps _ _ h
    | simp at h

/-- For a record found by name in the merged output, membership, the name
equation and uniqueness in the final sorted list. -/
theorem merged_find_conclusion (u d E : List PropType) (ν : String) (r : PropType)
    (hfind : (customMergePropTypes [] (u ++ d ++ E)).find? (fun p => p.name == ν) = some r) :
    r ∈ findPropTypes u d E ∧ r.name = ν ∧
      ∀ r' ∈ findPropTypes u d E, r'.name = ν → r' = r := by
  have hM : customMergePropTypes (customMergePropTypes (customMergePropTypes [] u) d) E
      = customMergePropTypes [] (u ++ d ++ E) := by
    rw [customMerge_append, customMerge_append, List.append_assoc]
  have hout : findPropTypes u d E = sortByKey (customMergePropTypes [] (u ++ d ++ E)) := by
    unfold findPropTypes
    rw [hM]
  have hmem : r ∈ customMergePropTypes [] (u ++ d ++ E) := List.mem_of_find?_eq_some hfind
  have hname : r.name = ν := by simpa using List.find?_some hfind
  have hperm := sortByKey_perm (customMergePropTypes [] (u ++ d ++ E))
  have hmem2 : r ∈ findPropTypes u d E := by
    rw [hout]
    exact hperm.mem_iff.mpr hmem
  have hnodup : (namesOf (customMergePropTypes [] (u ++ d ++ E))).Nodup :=
    nodup_namesOf_customMerge _ [] (by simp [namesOf])
  have hnodup2 : (namesOf (findPropTypes u d E)).Nodup := by
    rw [hout]
    exact ((hperm.map PropType.name).nodup_iff).mpr hnodup
  refine ⟨hmem2, hname, ?_⟩
  intro r' hr' hr'name
  exact eq_of_mem_nodup_names _ hnodup2 hr' hmem2 (hr'name.trans hname.symm)

def c1UsageRec : PropType := .mk "a" "func" false none none none []

def c1DefaultRec : PropType := .mk "a" "number" false (some "1") none none []

def c1Decl : Expr := .objectExpr [("a", .memberExpr (.ident "PropTypes") "string")]

def c1AnyDecl : Expr := .objectExpr [("a", .memberExpr (.ident "PropTypes") "any")]

/-- C1 counterexample: with a usage-inferred record of kind func for the
name a and an explicit declaration entry a: PropTypes.any for the same
name, the merged record keeps the usage-inferred kind func instead of the
explicit declaration's kind any: a declaration record whose kind is still
any carries no type information and is indistinguishable from an any-kind
defaults record, which must never supply the kind, so the claimed
unconditional priority of the explicit declaration over usage fails. -/
theorem C1_any_kind_priority_counterexample :
    ((findPropTypesInObjectNode c1AnyDecl).filterMap id).map PropType.type = ["any"] ∧
    (findPropTypes [c1UsageRec] []
      ((findPropTypesInObjectNode c1AnyDecl).filterMap id)).map PropType.type = ["func"] ∧
    c1UsageRec.type = "func" :=
  ⟨rfl, rfl, rfl⟩

/-- C1 (amended): the merged record of a property name produced by the
usage source resolves its kind and required flag by the priority explicit
declaration over usage inference over defaults, where a record carrying a
default value or whose kind is still any supplies no kind/required
information: when the explicit interpreter has a record of the name that
supplies kind information, the merged kind and required flag are that
record's; when its record supplies none (kind any) or it has no record of
the name, they are the usage record's — in particular every defaults-source
record carries a default value or kind any, so kind and required never come
from the defaults source — and the merged default value is the usage
record's if it supplied one and the defaults source's otherwise (the
explicit interpreter never supplies one). -/
theorem C1_declaration_priority_amended
    (u d : List PropType) (decl : Expr) (ν : String)
    (hu : (namesOf u).Nodup) (hd : (namesOf d).Nodup)
    (he : (namesOf ((findPropTypesInObjectNode decl).filterMap id)).Nodup)
    (hdshape : ∀ p ∈ d, suppliesKind p = false)
    (uν : PropType)
    (hfu : u.find? (fun p => p.name == ν) = some uν) :
    ∃ r ∈ findPropTypes u d ((findPropTypesInObjectNode decl).filterMap id),
      r.name = ν ∧
      (∀ eν, ((findPropTypesInObjectNode decl).filterMap id).find?
          (fun p => p.name == ν) = some eν →
        (suppliesKind eν = true → r.type = eν.type ∧ r.isRequired = eν.isRequired) ∧
        (suppliesKind eν = false → r.type = uν.type ∧ r.isRequired = uν.isRequired)) ∧
      (((findPropTypesInObjectNode decl).filterMap id).find?
          (fun p => p.name == ν) = none →
        r.type = uν.type ∧ r.isRequired = uν.isRequired) ∧
      r.defaultValue = optOr uν.defaultValue
        ((d.find? (fun p => p.name == ν)).bind PropType.defaultValue) ∧
      ∀ r' ∈ findPropTypes u d ((findPropTypesInObjectNode decl).filterMap id),
        r'.name = ν → r' = r := by
  have hedv : ∀ eν, ((findPropTypesInObjectNode decl).filterMap id).find?
      (fun p => p.name == ν) = some eν → eν.defaultValue = none := by
    intro eν hfe
    have hmemE : eν ∈ (findPropTypesInObjectNode decl).filterMap id :=
      List.mem_of_find?_eq_some hfe
    obtain ⟨o, ho, hoe⟩ := List.mem_filterMap.mp hmemE
    obtain ⟨k, v, hkv⟩ := mem_findPropTypesInObjectNode ho
    have hsome : findUpdateSpecialPropTypes v k = some eν := by
      rw [hkv]
      simpa using hoe
    exact findUpdateSpecialPropTypes_defaultValue v k eν hsome
  have hfu' : u.filter (fun p => p.name == ν) = [uν] := find?_nodup_filter hu hfu
  have hfind := customMerge_nil_find ν
    (u ++ d ++ (findPropTypesInObjectNode decl).filterMap id).length
    (u ++ d ++ (findPropTypesInObjectNode decl).filterMap id) le_rfl
  cases hdf : d.find? (fun p => p.name == ν) with
  | none =>
      have hfd' : d.filter (fun p => p.name == ν) = [] := find?_eq_none_filter hdf
      cases hef : ((findPropTypesInObjectNode decl).filterMap id).find?
          (fun p => p.name == ν) with
      | none =>
          have hfe' : ((findPropTypesInObjectNode decl).filterMap id).filter
              (fun p => p.name == ν) = [] := find?_eq_none_filter hef
          have hfilter : (u ++ d ++ (findPropTypesInObjectNode decl).filterMap id).filter
              (fun p => p.name == ν) = [uν] := by
            simp [List.filter_append, hfu', hfd', hfe']
          rw [hfilter] at hfind
          obtain ⟨hmem2, hname, huniq⟩ := merged_find_conclusion u d _ ν _ hfind
          refine ⟨chainMerge uν [], hmem2, hname, ?_, ?_, ?_, huniq⟩
          · intro eν heν
            simp at heν
          · intro _
            exact ⟨rfl, rfl⟩
          · exact (optOr_none_right _).symm
      | some eν₀ =>
          have hfe' : ((findPropTypesInObjectNode decl).filterMap id).filter
              (fun p => p.name == ν) = [eν₀] := find?_nodup_filter he hef
          have hfilter : (u ++ d ++ (findPropTypesInObjectNode decl).filterMap id).filter
              (fun p => p.name == ν) = [uν, eν₀] := by
            simp [List.filter_append, hfu', hfd', hfe']
          rw [hfilter] at hfind
          obtain ⟨hmem2, hname, huniq⟩ := merged_find_conclusion u d _ ν _ hfind
          refine ⟨chainMerge uν [eν₀], hmem2, hname, ?_, ?_, ?_, huniq⟩
          · intro eν heν
            have heq : eν = eν₀ := by
              injection heν with h
              exact h.symm
            subst heq
            constructor
            · intro hsup
              refine ⟨?_, ?_⟩
              · simp [chainMerge_cons, chainMerge_nil, mergeRecord_type, hsup]
              · simp [chainMerge_cons, chainMerge_nil, mergeRecord_isRequired, hsup]
            · intro hsup
              refine ⟨?_, ?_⟩
              · simp [chainMerge_cons, chainMerge_nil, mergeRecord_type, hsup]
              · simp [chainMerge_cons, chainMerge_nil, mergeRecord_isRequired, hsup]
          · intro h
            simp at h
          · show optOr uν.defaultValue eν₀.defaultValue = _
            rw [hedv eν₀ hef, optOr_none_right]
            exact (optOr_none_right _).symm
  | some dν =>
      have hdsup : suppliesKind dν = false :=
        hdshape dν (List.mem_of_find?_eq_some hdf)
      have hfd' : d.filter (fun p => p.name == ν) = [dν] := find?_nodup_filter hd hdf
      cases hef : ((findPropTypesInObjectNode decl).filterMap id).find?
          (fun p => p.name == ν) with
      | none =>
          have hfe' : ((findPropTypesInObjectNode decl).filterMap id).filter
              (fun p => p.name == ν) = [] := find?_eq_none_filter hef
          have hfilter : (u ++ d ++ (findPropTypesInObjectNode decl).filterMap id).filter
              (fun p => p.name == ν) = [uν, dν] := by
            simp [List.filter_append, hfu', hfd', hfe']
          rw [hfilter] at hfind
          obtain ⟨hmem2, hname, huniq⟩ := merged_find_conclusion u d _ ν _ hfind
          refine ⟨chainMerge uν [dν], hmem2, hname, ?_, ?_, ?_, huniq⟩
          · intro eν heν
            simp at heν
          · intro _
            refine ⟨?_, ?_⟩
            · simp [chainMerge_cons, chainMerge_nil, mergeRecord_type, hdsup]
            · simp [chainMerge_cons, chainMerge_nil, mergeRecord_isRequired, hdsup]
          · show optOr uν.defaultValue dν.defaultValue = _
            rfl
      | some eν₀ =>
          have hfe' : ((findPropTypesInObjectNode decl).filterMap id).filter
              (fun p => p.name == ν) = [eν₀] := find?_nodup_filter he hef
          have hfilter : (u ++ d ++ (findPropTypesInObjectNode decl).filterMap id).filter
              (fun p => p.name == ν) = [uν, dν, eν₀] := by
            simp [List.filter_append, hfu', hfd', hfe']
          rw [hfilter] at hfind
          obtain ⟨hmem2, hname, huniq⟩ := merged_find_conclusion u d _ ν _ hfind
          refine ⟨chainMerge uν [dν, eν₀], hmem2, hname, ?_, ?_, ?_, huniq⟩
          · intro eν heν
            have heq : eν = eν₀ := by
              injection heν with h
              exact h.symm
            subst heq
            constructor
            · intro hsup
              refine ⟨?_, ?_⟩
              · simp [chainMerge_cons, chainMerge_nil, mergeRecord_type, hdsup, hsup]
              · simp [chainMerge_cons, chainMerge_nil, mergeRecord_isRequired, hdsup, hsup]
            · intro hsup
              refine ⟨?_, ?_⟩
              · simp [chainMerge_cons, chainMerge_nil, mergeRecord_type, hdsup, hsup]
              · simp [chainMerge_cons, chainMerge_nil, mergeRecord_isRequired, hdsup, hsup]
          · intro h
            simp at h
          · show optOr (optOr uν.defaultValue dν.defaultValue) eν₀.defaultValue = _
            rw [hedv eν₀ hef, optOr_none_right]
            rfl

theorem C1_declaration_priority_amended_witness :
    ∃ r ∈ findPropTypes [c1UsageRec] [c1DefaultRec]
        ((findPropTypesInObjectNode c1Decl).filterMap id),
      r.name = "a" ∧
      (∀ eν, ((findPropTypesInObjectNode c1Decl).filterMap id).find?
          (fun p => p.name == "a") = some eν →
        (suppliesKind eν = true → r.type = eν.type ∧ r.isRequired = eν.isRequired) ∧
        (suppliesKind eν = false → r.type = c1UsageRec.type ∧
          r.isRequired = c1UsageRec.isRequired)) ∧
      (((findPropTypesInObjectNode c1Decl).filterMap id).find?
          (fun p => p.name == "a") = none →
        r.type = c1UsageRec.type ∧ r.isRequired = c1UsageRec.isRequired) ∧
      r.defaultValue = optOr c1UsageRec.defaultValue
        (([c1DefaultRec].find? (fun p => p.name == "a")).bind PropType.defaultValue) ∧
      ∀ r' ∈ findPropTypes [c1UsageRec] [c1DefaultRec]
          ((findPropTypesInObjectNode c1Decl).filterMap id),
        r'.name = "a" → r' = r :=
  C1_declaration_priority_amended [c1UsageRec] [c1DefaultRec] c1Decl "a"
    (by decide) (by decide) (by decide) (by decide) c1UsageRec rfl

/-- C3 counterexample: an object-literal entry whose value is a plain literal
(neither a call nor a member expression) is classified as null, and that
null is pushed into the interpreter output unfiltered: the output list is
[null], so null results are present in, not absent from, the final list. -/
theorem C3_null_not_filtered_counterexample :
    findPropTypesInObjectNode (Expr.objectExpr [("x", Expr.numberLit 1)]) = [none] ∧
    none ∈ findPropTypesInObjectNode (Expr.objectExpr [("x", Expr.numberLit 1)]) :=
  ⟨rfl, List.mem_singleton.mpr rfl⟩

theorem objectProps_get? :
    ∀ (ps : List (String × Expr)) (j : Nat),
      (findPropTypesInObjectProps ps).get? j =
        (ps.get? j).map (fun kv => findUpdateSpecialPropTypes kv.2 kv.1) := by
  intro ps
  induction ps with
  | nil => intro j; cases j <;> rfl
  | cons kv rest ih =>
      intro j
      obtain ⟨k, v⟩ := kv
      cases j with
      | zero => rfl
      | succ j => exact ih j

/-- C3 (amended): a declaration entry whose value expression is neither a
call expression nor a member expression yields a null classification, but the
null results are kept, not filtered, at the top level of the interpreter: the
entry position of the output list holds null (nulls are filtered only when
array elements are classified for oneOfType children). -/
theorem C3_null_classification_amended :
    (∀ (e : Expr) (k : String),
      (∀ callee args, e ≠ Expr.callExpr callee args) →
      (∀ o p, e ≠ Expr.memberExpr o p) →
      findUpdateSpecialPropTypes e k = none) ∧
    (∀ (ps : List (String × Expr)) (j : Nat) (k : String) (v : Expr),
      ps.get? j = some (k, v) → findUpdateSpecialPropTypes v k = none →
      (findPropTypesInObjectProps ps).get? j = some none) := by
  constructor
  · intro e k hc hm
    cases e with
    | callExpr callee args => exact absurd rfl (hc callee args)
    | memberExpr o p => exact absurd rfl (hm o p)
    | ident nm => rfl
    | numberLit nv => rfl
    | stringLit sv => rfl
    | boolLit bv => rfl
    | objectExpr ps => rfl
    | arrayExpr es => rfl
    | arrowFunctionExpr => rfl
    | otherExpr => rfl
  · intro ps j k v hj hnone
    rw [objectProps_get?, hj]
    simp [hnone]

theorem C3_null_classification_amended_witness :
    findUpdateSpecialPropTypes (Expr.numberLit 1) "x" = none ∧
    (findPropTypesInObjectProps [("x", Expr.numberLit 1)]).get? 0 = some none :=
  ⟨C3_null_classification_amended.1 (Expr.numberLit 1) "x"
      (fun _ _ h => Expr.noConfusion h) (fun _ _ h => Expr.noConfusion h),
    C3_null_classification_amended.2 [("x", Expr.numberLit 1)] 0 "x" (Expr.numberLit 1)
      rfl rfl⟩

/-- Embeds the empty-result check of generatePropTypes in bin/cli.js: a
merged list with no records is turned into the error used there rather than
returned as a successful empty result. -/
def checkPropTypesFound (l : List PropType) : Except String (List PropType) :=
  if l.length = 0 then .error "Not find any props" else .ok l

/-- C4: when the three inference strategies yield no records, the merged
list is empty and the operation signals the empty result to the caller as an
error. -/
theorem C4_empty_merge_fails (u d e : List PropType)
    (hu : u = []) (hd : d = []) (he : e = []) :
    checkPropTypesFound (findPropTypes u d e) = Except.error "Not find any props" := by
  subst hu
  subst hd
  subst he
  rfl

theorem C4_empty_merge_fails_witness :
    checkPropTypesFound (findPropTypes [] [] []) = Except.error "Not find any props" :=
  C4_empty_merge_fails [] [] [] rfl rfl rfl

def c5ExplicitRec : PropType := .mk "a" "string" true none none none []

/-- C5 counterexample: permuting the order in which the same two records
arrive from the sources changes the final output, because the record merged
later wins the conflicting fields: with a usage-inferred func record and an
explicit string record for the same name, one arrival order yields kind
string and the permuted order yields kind func. -/
theorem C5_source_order_counterexample :
    ¬ (findPropTypes [c1UsageRec] [] [c5ExplicitRec]
        = findPropTypes [c5ExplicitRec] [] [c1UsageRec]) := by
  intro h
  have h2 := congrArg (List.map PropType.type) h
  have e1 : (findPropTypes [c1UsageRec] [] [c5ExplicitRec]).map PropType.type
      = ["string"] := rfl
  have e2 : (findPropTypes [c5ExplicitRec] [] [c1UsageRec]).map PropType.type
      = ["func"] := rfl
  rw [e1, e2] at h2
  simp at h2

/-- C5 (amended): the final merged list is always sorted by name in
ascending order, and permuting the order in which the records arrive from
the three sources leaves the output unchanged provided the record names are
pairwise distinct; with duplicate names the arrival order decides the merge
priority, as the counterexample shows. -/
theorem C5_sorted_and_distinct_names_invariance :
    (∀ u d e : List PropType, (findPropTypes u d e).Sorted nameLe) ∧
    (∀ u d e u' d' e' : List PropType,
      (namesOf (u ++ d ++ e)).Nodup →
      (u ++ d ++ e).Perm (u' ++ d' ++ e') →
      findPropTypes u d e = findPropTypes u' d' e') := by
  constructor
  · intro u d e
    exact sortByKey_sorted _
  · intro u d e u' d' e' hnd hperm
    have hnd' : (namesOf (u' ++ d' ++ e')).Nodup :=
      ((hperm.map PropType.name).nodup_iff).mp hnd
    have key : ∀ (a b c : List PropType), (namesOf (a ++ b ++ c)).Nodup →
        findPropTypes a b c = sortByKey (a ++ b ++ c) := by
      intro a b c h
      unfold findPropTypes
      rw [customMerge_append, customMerge_append]
      have happ : customMergePropTypes [] (a ++ (b ++ c)) = [] ++ (a ++ (b ++ c)) :=
        customMerge_eq_append_of_nodup (a ++ (b ++ c)) []
          (by simpa [namesOf, List.append_assoc] using h)
      rw [happ]
      simp [List.append_assoc]
    rw [key u d e hnd, key u' d' e' hnd']
    refine sorted_nodup_perm_eq _ _ ?_ (sortByKey_sorted _) (sortByKey_sorted _) ?_
    · exact ((sortByKey_perm _).trans hperm).trans (sortByKey_perm _).symm
    · exact (((sortByKey_perm _).map PropType.name).nodup_iff).mpr hnd

def c5RecB : PropType := .mk "b" "func" false none none none []

theorem C5_sorted_and_distinct_names_invariance_witness :
    findPropTypes [c5RecB] [] [c5ExplicitRec] = findPropTypes [c5ExplicitRec] [] [c5RecB] :=
  C5_sorted_and_distinct_names_invariance.2 [c5RecB] [] [c5ExplicitRec]
    [c5ExplicitRec] [] [c5RecB] (by decide)
    (by simpa using List.Perm.swap c5ExplicitRec c5RecB [])

def PropType.setDefaultValue (p : PropType) (v : String) : PropType :=
  .mk p.name p.type p.isRequired (some v) p.id p.astNode p.childTypes

def PropType.setId (p : PropType) (i : String) : PropType :=
  .mk p.name p.type p.isRequired p.defaultValue (some i) p.astNode p.childTypes

/-- Modelled from the spec: propTypesHelper.updatePropTypeByNode (the
utils/propTypesHelper module is not among the given sources) infers the kind
structurally from a value expression: literals map to their primitive kinds,
object and array literals to object and array, functions to func, and
anything else leaves the kind any. -/
def updatePropTypeByNode (value : Expr) (p : PropType) : PropType :=
  match value with
  | .numberLit _ => p.setType "number"
  | .stringLit _ => p.setType "string"
  | .boolLit _ => p.setType "bool"
  | .objectExpr _ => p.setType "object"
  | .arrayExpr _ => p.setType "array"
  | .arrowFunctionExpr => p.setType "func"
  | _ => p

/-- Modelled from the spec: the recast prettyPrint rendering of a default
expression, for the expression forms the defaults inference renders. -/
def prettyPrintExpr : Expr → String
  | .numberLit n => toString n
  | .stringLit s => "\"" ++ s ++ "\""
  | .boolLit b => cond b "true" "false"
  | .ident n => n
  | _ => ""

/-- One property of an object destructuring pattern, as inspected by
findPropTypesInObjectPattern: an assignment pattern whose left side is an
identifier, an assignment pattern whose left side is something else, a plain
identifier binding, or any other pattern form. -/
inductive PatProp : Type where
  | assign (keyName leftName : String) (right : Expr)
  | assignNonIdent (keyName : String) (right : Expr)
  | identProp (keyName valueName : String)
  | otherProp (keyName : String)

/-- Embeds findPropTypesInObjectPattern: an assignment-pattern entry with an
identifier left side gets its kind inferred from the right side, its default
value rendered only when that kind is not any, and its binding id set to the
left name; an identifier entry gets only the name and the binding id; any
other entry is skipped. -/
def findPropTypesInObjectPattern : List PatProp → List PropType
  | [] => []
  | .assign k l r :: rest =>
      let p0 := updatePropTypeByNode r (PropType.fresh k)
      let p1 := if p0.type = "any" then p0 else p0.setDefaultValue (prettyPrintExpr r)
      p1.setId l :: findPropTypesInObjectPattern rest
  | .assignNonIdent _ _ :: rest => findPropTypesInObjectPattern rest
  | .identProp k v :: rest =>
      (PropType.fresh k).setId v :: findPropTypesInObjectPattern rest
  | .otherProp _ :: rest => findPropTypesInObjectPattern rest

theorem updatePropTypeByNode_name (v : Expr) (p : PropType) :
    (updatePropTypeByNode v p).name = p.name := by
  cases v <;> rfl

theorem updatePropTypeByNode_defaultValue (v : Expr) (p : PropType) :
    (updatePropTypeByNode v p).defaultValue = p.defaultValue := by
  cases v <;> rfl

theorem PropType.setId_name (p : PropType) (l : String) : (p.setId l).name = p.name := rfl

theorem PropType.setId_type (p : PropType) (l : String) : (p.setId l).type = p.type := rfl

theorem PropType.setId_id (p : PropType) (l : String) : (p.setId l).id = some l := rfl

theorem PropType.setId_defaultValue (p : PropType) (l : String) :
    (p.setId l).defaultValue = p.defaultValue := rfl

theorem PropType.setDefaultValue_name (p : PropType) (v : String) :
    (p.setDefaultValue v).name = p.name := rfl

theorem PropType.setDefaultValue_type (p : PropType) (v : String) :
    (p.setDefaultValue v).type = p.type := rfl

theorem PropType.setDefaultValue_defaultValue (p : PropType) (v : String) :
    (p.setDefaultValue v).defaultValue = some v := rfl

def c7AnyRightRec : PropType := (PropType.fresh "c").setId "c"

/-- C7 counterexample: a destructuring default whose right side is a plain
identifier reference infers to kind any, so the guard in
findPropTypesInObjectPattern skips the default value entirely: the record
for c carries no defaultValue although the rendered right side is the
string x. -/
theorem C7_any_default_counterexample :
    findPropTypesInObjectPattern [.assign "c" "c" (.ident "x")] = [c7AnyRightRec] ∧
    prettyPrintExpr (.ident "x") = "x" ∧
    c7AnyRightRec.defaultValue ≠ some (prettyPrintExpr (.ident "x")) :=
  ⟨rfl, rfl, by decide⟩

/-- C7 (amended): an assignment-pattern entry with identifier left side
yields a record named after the key whose kind is inferred structurally from
the right-hand expression and whose binding id is the left name; the
defaultValue is the rendered right-hand expression exactly when that
inferred kind is not any, and is absent when the kind infers to any.  In
particular, for the pattern with entries a and b = 1, the merged record for
b has defaultValue 1 and the non-any kind number. -/
theorem C7_assignment_pattern_defaults_amended :
    (∀ (k l : String) (r : Expr) (rest : List PatProp),
      ∃ p rest2, findPropTypesInObjectPattern (.assign k l r :: rest) = p :: rest2 ∧
        p.name = k ∧ p.id = some l ∧
        p.type = (updatePropTypeByNode r (PropType.fresh k)).type ∧
        p.defaultValue = (if (updatePropTypeByNode r (PropType.fresh k)).type = "any"
          then none else some (prettyPrintExpr r))) ∧
    (∃ r ∈ findPropTypes
        (findPropTypesInObjectPattern [.identProp "a" "a", .assign "b" "b" (.numberLit 1)])
        [] [],
      r.name = "b" ∧ r.defaultValue = some "1" ∧ r.type = "number" ∧ r.type ≠ "any") := by
  constructor
  · intro k l r rest
    refine ⟨(if (updatePropTypeByNode r (PropType.fresh k)).type = "any"
        then updatePropTypeByNode r (PropType.fresh k)
        else (updatePropTypeByNode r (PropType.fresh k)).setDefaultValue
          (prettyPrintExpr r)).setId l,
      findPropTypesInObjectPattern rest, rfl, ?_, ?_, ?_, ?_⟩
    · rw [PropType.setId_name]
      by_cases h : (updatePropTypeByNode r (PropType.fresh k)).type = "any"
      · rw [if_pos h, updatePropTypeByNode_name]
        rfl
      · rw [if_neg h, PropType.setDefaultValue_name, updatePropTypeByNode_name]
        rfl
    · rw [PropType.setId_id]
    · rw [PropType.setId_type]
      by_cases h : (updatePropTypeByNode r (PropType.fresh k)).type = "any"
      · rw [if_pos h]
      · rw [if_neg h, PropType.setDefaultValue_type]
    · rw [PropType.setId_defaultValue]
      by_cases h : (updatePropTypeByNode r (PropType.fresh k)).type = "any"
      · rw [if_pos h, if_pos h, updatePropTypeByNode_defaultValue]
        rfl
      · rw [if_neg h, if_neg h, PropType.setDefaultValue_defaultValue]
  · refine ⟨PropType.mk "b" "number" false (some "1") (some "b") none [], ?_, rfl, rfl, rfl,
      by decide⟩
    have heval : findPropTypes
        (findPropTypesInObjectPattern [.identProp "a" "a", .assign "b" "b" (.numberLit 1)])
        [] [] =
        [PropType.mk "a" "any" false none (some "a") none [],
          PropType.mk "b" "number" false (some "1") (some "b") none []] := rfl
    rw [heval]
    exact List.mem_cons_of_mem _ (List.mem_singleton.mpr rfl)

theorem C7_assignment_pattern_defaults_amended_witness :
    (∃ p rest2, findPropTypesInObjectPattern [.assign "b" "b" (.numberLit 1)]
        = p :: rest2 ∧
      p.name = "b" ∧ p.id = some "b" ∧
      p.type = (updatePropTypeByNode (.numberLit 1) (PropType.fresh "b")).type ∧
      p.defaultValue = (if (updatePropTypeByNode (.numberLit 1)
        (PropType.fresh "b")).type = "any" then none
        else some (prettyPrintExpr (.numberLit 1)))) ∧
    (∃ r ∈ findPropTypes
        (findPropTypesInObjectPattern [.identProp "a" "a", .assign "b" "b" (.numberLit 1)])
        [] [],
      r.name = "b" ∧ r.defaultValue = some "1" ∧ r.type = "number" ∧ r.type ≠ "any") :=
  ⟨C7_assignment_pattern_defaults_amended.1 "b" "b" (.numberLit 1) [],
    C7_assignment_pattern_defaults_amended.2⟩

/-! The completion pass (findAndCompletePropTypes). -/

/-- A usage event seen by the completion pass while visiting the tree: a
call expression whose callee is a plain identifier, or a member access
reduced to its root identifier name.  Modelled from the spec:
propTypesHelper.getPropTypeByMemberExpression (not among the given sources)
reduces a member access path to the root identifier name and a record for
the accessed member; the recursive completion of that record over the same
tree is summarized by its result list, which depends only on the tree, so
the event carries that completed child list. -/
inductive UsageEvent : Type where
  | callEvent (calleeName : String)
  | memberEvent (rootName : String) (childResult : List PropType)

def UsageEvent.rootName : UsageEvent → String
  | .callEvent c => c
  | .memberEvent n _ => n

/-- The children contributed by an event: a member event carries the
completed records of the accessed member, a call carries none. -/
def UsageEvent.children : UsageEvent → List PropType
  | .callEvent _ => []
  | .memberEvent _ cr => cr

/-- The candidate binding identifiers of the completion pass: records that
have a binding id and whose kind is still any or shape. -/
def candidateIds (pts : List PropType) : List String :=
  ((pts.filter (fun p => p.id.isSome)).filter
    (fun p => p.type == "any" || p.type == "shape")).filterMap PropType.id

/-- Updates the first record whose binding id matches, as the find call of
the completion pass visitors does. -/
def updateFirstById : List PropType → String → (PropType → PropType) → List PropType
  | [], _, _ => []
  | p :: ps, i, f => if p.id = some i then f p :: ps else p :: updateFirstById ps i f

/-- The body of the call-expression visitor: the found record becomes func. -/
def setTypeFunc (p : PropType) : PropType := p.setType "func"

/-- The body of the member-expression visitor: the found record becomes
shape and its children are merged with the completed child records. -/
def applyShape (cr : List PropType) (p : PropType) : PropType :=
  PropType.mk p.name "shape" p.isRequired p.defaultValue p.id p.astNode
    (customMergePropTypes p.childTypes cr)

/-- One visitor step of the completion pass over the whole record list. -/
def applyUsageEvent (ids : List String) (pts : List PropType) : UsageEvent → List PropType
  | .callEvent c => if c ∈ ids then updateFirstById pts c setTypeFunc else pts
  | .memberEvent n cr => if n ∈ ids then updateFirstById pts n (applyShape cr) else pts

/-- The effect of one event on the single record it targets, before the
candidate check. -/
def applyEventToRecord (p : PropType) : UsageEvent → PropType
  | .callEvent _ => setTypeFunc p
  | .memberEvent _ cr => applyShape cr p

/-- The effect of one event on its target record, with the candidate
check. -/
def applyOne (ids : List String) (p : PropType) (e : UsageEvent) : PropType :=
  if e.rootName ∈ ids then applyEventToRecord p e else p

/-- Whether an event is routed to this record: its binding id matches the
event root name. -/
def targets (p : PropType) (e : UsageEvent) : Bool := p.id == some e.rootName

/-- Embeds findAndCompletePropTypes: the candidate ids are computed once
from the records; with no candidate the copied list is returned unchanged,
otherwise the usage events of the tree are folded over the visitor steps. -/
def findAndCompletePropTypes (events : List UsageEvent) (propTypes : List PropType) :
    List PropType :=
  if (candidateIds propTypes).isEmpty then propTypes
  else events.foldl (applyUsageEvent (candidateIds propTypes)) propTypes

theorem applyEventToRecord_id (p : PropType) (e : UsageEvent) :
    (applyEventToRecord p e).id = p.id := by
  cases e <;> rfl

theorem applyEventToRecord_name (p : PropType) (e : UsageEvent) :
    (applyEventToRecord p e).name = p.name := by
  cases e <;> rfl

theorem applyEventToRecord_isRequired (p : PropType) (e : UsageEvent) :
    (applyEventToRecord p e).isRequired = p.isRequired := by
  cases e <;> rfl

theorem applyEventToRecord_defaultValue (p : PropType) (e : UsageEvent) :
    (applyEventToRecord p e).defaultValue = p.defaultValue := by
  cases e <;> rfl

theorem applyEventToRecord_astNode (p : PropType) (e : UsageEvent) :
    (applyEventToRecord p e).astNode = p.astNode := by
  cases e <;> rfl

theorem applyOne_id (ids : List String) (p : PropType) (e : UsageEvent) :
    (applyOne ids p e).id = p.id := by
  unfold applyOne
  split
  · exact applyEventToRecord_id p e
  · rfl

theorem applyOne_fold_id (ids : List String) (es : List UsageEvent) :
    ∀ p : PropType, (es.foldl (applyOne ids) p).id = p.id := by
  induction es with
  | nil => intro p; rfl
  | cons e es ih => intro p; rw [List.foldl_cons, ih, applyOne_id]

theorem targets_congr {q p : PropType} (h : q.id = p.id) : targets q = targets p := by
  funext e
  simp [targets, h]

theorem step_of_targets (ids : List String) (p : PropType) (ps : List PropType)
    (e : UsageEvent) (ht : targets p e = true) :
    applyUsageEvent ids (p :: ps) e = applyOne ids p e :: ps := by
  have hid : p.id = some e.rootName := by simpa [targets] using ht
  cases e with
  | callEvent c =>
      simp only [applyUsageEvent, applyOne, UsageEvent.rootName, applyEventToRecord]
      split
      · simp [updateFirstById, hid, UsageEvent.rootName]
      · rfl
  | memberEvent n cr =>
      simp only [applyUsageEvent, applyOne, UsageEvent.rootName, applyEventToRecord]
      split
      · simp [updateFirstById, hid, UsageEvent.rootName]
      · rfl

theorem step_of_not_targets (ids : List String) (p : PropType) (ps : List PropType)
    (e : UsageEvent) (ht : targets p e = false) :
    applyUsageEvent ids (p :: ps) e = p :: applyUsageEvent ids ps e := by
  have hid : ¬ p.id = some e.rootName := by simpa [targets] using ht
  cases e with
  | callEvent c =>
      simp only [UsageEvent.rootName] at hid
      simp only [applyUsageEvent]
      split
      · simp [updateFirstById, hid]
      · rfl
  | memberEvent n cr =>
      simp only [UsageEvent.rootName] at hid
      simp only [applyUsageEvent]
      split
      · simp [updateFirstById, hid]
      · rfl

/-- Structural decomposition of the completion fold: the head record
receives exactly the events routed to its binding id, and the tail fold runs
on the remaining events. -/
theorem foldEvents_cons_split (es : List UsageEvent) :
    ∀ (ids : List String) (p : PropType) (ps : List PropType),
    es.foldl (applyUsageEvent ids) (p :: ps) =
      (es.filter (targets p)).foldl (applyOne ids) p ::
        (es.filter (fun e => !(targets p e))).foldl (applyUsageEvent ids) ps := by
  induction es with
  | nil => intro ids p ps; rfl
  | cons e es ih =>
      intro ids p ps
      rw [List.foldl_cons]
      cases ht : targets p e with
      | true =>
          rw [step_of_targets ids p ps e ht, ih ids (applyOne ids p e) ps]
          have hte : targets (applyOne ids p e) = targets p :=
            targets_congr (applyOne_id ids p e)
          rw [hte]
          rw [List.filter_cons, List.filter_cons, ht]
          simp

      | false =>
          rw [step_of_not_targets ids p ps e ht, ih ids p (applyUsageEvent ids ps e)]
          rw [List.filter_cons, List.filter_cons, ht]
          simp

theorem applyOne_fold_all_same (ids : List String) (i : String) :
    ∀ (es : List UsageEvent) (p : PropType), (∀ e ∈ es, e.rootName = i) →
      es.foldl (applyOne ids) p =
        if i ∈ ids then es.foldl applyEventToRecord p else p := by
  intro es
  induction es with
  | nil => intro p _; split <;> rfl
  | cons e es ih =>
      intro p hall
      have he : e.rootName = i := hall e (by simp)
      rw [List.foldl_cons, List.foldl_cons]
      by_cases hmem : i ∈ ids
      · rw [if_pos hmem]
        have hone : applyOne ids p e = applyEventToRecord p e := by
          unfold applyOne
          rw [he, if_pos hmem]
        rw [hone, ih _ (fun e' h' => hall e' (List.mem_cons_of_mem e h')), if_pos hmem]
      · rw [if_neg hmem]
        have hone : applyOne ids p e = p := by
          unfold applyOne
          rw [he, if_neg hmem]
        rw [hone, ih _ (fun e' h' => hall e' (List.mem_cons_of_mem e h')), if_neg hmem]

theorem targets_filter_rootName {p : PropType} {i : String} (hid : p.id = some i)
    (es : List UsageEvent) : ∀ e ∈ es.filter (targets p), e.rootName = i := by
  intro e he
  have h1 : targets p e = true := List.of_mem_filter he
  have h2 : p.id = some e.rootName := by simpa [targets] using h1
  rw [hid] at h2
  exact (Option.some.inj h2).symm

theorem targets_filter_nil_of_id_none {p : PropType} (hid : p.id = none)
    (es : List UsageEvent) : es.filter (targets p) = [] := by
  refine List.filter_eq_nil_iff.mpr ?_
  intro e _
  simp [targets, hid]

theorem raw_fold_proj {α : Type} (fld : PropType → α)
    (hf : ∀ p e, fld (applyEventToRecord p e) = fld p) :
    ∀ (es : List UsageEvent) (p : PropType), fld (es.foldl applyEventToRecord p) = fld p := by
  intro es
  induction es with
  | nil => intro p; rfl
  | cons e es ih => intro p; rw [List.foldl_cons, ih, hf]

theorem raw_fold_type_ne_nil (es : List UsageEvent) (h : es ≠ []) :
    ∀ p q : PropType,
      (es.foldl applyEventToRecord p).type = (es.foldl applyEventToRecord q).type := by
  induction es with
  | nil => exact absurd rfl h
  | cons e es ih =>
      intro p q
      match es, ih with
      | [], _ => cases e <;> rfl
      | e2 :: es2, ih =>
          exact ih (by simp) (applyEventToRecord p e) (applyEventToRecord q e)

/-- The children contributed by a list of events, in order. -/
def eventsChildren : List UsageEvent → List PropType
  | [] => []
  | e :: es => e.children ++ eventsChildren es

theorem raw_fold_childTypes (es : List UsageEvent) :
    ∀ p : PropType, (es.foldl applyEventToRecord p).childTypes =
      customMergePropTypes p.childTypes (eventsChildren es) := by
  induction es with
  | nil => intro p; rfl
  | cons e es ih =>
      intro p
      rw [List.foldl_cons, ih, eventsChildren, ← customMerge_append]
      congr 1
      cases e with
      | callEvent c => rfl
      | memberEvent n cr => rfl

theorem raw_fold_absorb (es : List UsageEvent) (p : PropType) :
    es.foldl applyEventToRecord (es.foldl applyEventToRecord p) =
      es.foldl applyEventToRecord p := by
  cases hes : es with
  | nil => rfl
  | cons e es' =>
      refine PropType.ext_fields ?_ ?_ ?_ ?_ ?_ ?_ ?_
      · exact raw_fold_proj PropType.name applyEventToRecord_name _ _
      · exact raw_fold_type_ne_nil _ (by simp) _ p
      · exact raw_fold_proj PropType.isRequired applyEventToRecord_isRequired _ _
      · exact raw_fold_proj PropType.defaultValue applyEventToRecord_defaultValue _ _
      · exact raw_fold_proj PropType.id applyEventToRecord_id _ _
      · exact raw_fold_proj PropType.astNode applyEventToRecord_astNode _ _
      · rw [raw_fold_childTypes, raw_fold_childTypes]
        exact customMerge_replay _ _

theorem mem_candidateIds {pts : List PropType} {i : String} :
    i ∈ candidateIds pts ↔
      ∃ r ∈ pts, r.id = some i ∧ (r.type = "any" ∨ r.type = "shape") := by
  constructor
  · intro h
    obtain ⟨r, hr, hri⟩ := List.mem_filterMap.mp h
    have hr1 := List.mem_filter.mp hr
    have hr2 := List.mem_filter.mp hr1.1
    refine ⟨r, hr2.1, hri, ?_⟩
    simpa using hr1.2
  · rintro ⟨r, hr, hid, hty⟩
    refine List.mem_filterMap.mpr ⟨r, ?_, hid⟩
    refine List.mem_filter.mpr ⟨List.mem_filter.mpr ⟨hr, ?_⟩, ?_⟩
    · simp [hid]
    · simpa using hty

theorem mem_updateFirstById {l : List PropType} {c : String} {f : PropType → PropType}
    {r : PropType} (h : r ∈ updateFirstById l c f) :
    r ∈ l ∨ ∃ q ∈ l, q.id = some c ∧ r = f q := by
  induction l with
  | nil => simp [updateFirstById] at h
  | cons p ps ih =>
      rw [updateFirstById] at h
      by_cases hp : p.id = some c
      · rw [if_pos hp] at h
        rcases List.mem_cons.mp h with rfl | h2
        · exact Or.inr ⟨p, by simp, hp, rfl⟩
        · exact Or.inl (List.mem_cons_of_mem p h2)
      · rw [if_neg hp] at h
        rcases List.mem_cons.mp h with rfl | h2
        · exact Or.inl (by simp)
        · rcases ih h2 with h3 | ⟨q, hq, hqc, hrq⟩
          · exact Or.inl (List.mem_cons_of_mem p h3)
          · exact Or.inr ⟨q, List.mem_cons_of_mem p hq, hqc, hrq⟩

theorem setTypeFunc_id (q : PropType) : (setTypeFunc q).id = q.id := rfl

theorem applyShape_id (cr : List PropType) (q : PropType) : (applyShape cr q).id = q.id := rfl

theorem fold_preserve_nonid (ids : List String) (i : String) (hi : i ∉ ids) :
    ∀ (es : List UsageEvent) (pts : List PropType) (r : PropType),
      r ∈ es.foldl (applyUsageEvent ids) pts → r.id = some i → r ∈ pts := by
  intro es
  induction es with
  | nil => intro pts r h _; exact h
  | cons e es ih =>
      intro pts r h hr
      have h2 : r ∈ applyUsageEvent ids pts e :=
        ih (applyUsageEvent ids pts e) r (by rwa [List.foldl_cons] at h) hr
      cases e with
      | callEvent c =>
          simp only [applyUsageEvent] at h2
          by_cases hc : c ∈ ids
          · rw [if_pos hc] at h2
            rcases mem_updateFirstById h2 with h3 | ⟨q, hq, hqc, hrq⟩
            · exact h3
            · exfalso
              have hri : r.id = some c := by rw [hrq, setTypeFunc_id, hqc]
              rw [hr] at hri
              exact hi ((Option.some.inj hri) ▸ hc)
          · rwa [if_neg hc] at h2
      | memberEvent n cr =>
          simp only [applyUsageEvent] at h2
          by_cases hc : n ∈ ids
          · rw [if_pos hc] at h2
            rcases mem_updateFirstById h2 with h3 | ⟨q, hq, hqc, hrq⟩
            · exact h3
            · exfalso
              have hri : r.id = some n := by rw [hrq, applyShape_id, hqc]
              rw [hr] at hri
              exact hi ((Option.some.inj hri) ▸ hc)
          · rwa [if_neg hc] at h2

theorem candidateIds_fold_subset (pts : List PropType) (es : List UsageEvent) :
    ∀ i, i ∈ candidateIds (es.foldl (applyUsageEvent (candidateIds pts)) pts) →
      i ∈ candidateIds pts := by
  intro i hi
  obtain ⟨r, hr, hrid, hrty⟩ := mem_candidateIds.mp hi
  by_cases hmem : i ∈ candidateIds pts
  · exact hmem
  · have : r ∈ pts := fold_preserve_nonid _ i hmem es pts r hr hrid
    exact mem_candidateIds.mpr ⟨r, this, hrid, hrty⟩

theorem fold_nil_state (ids : List String) :
    ∀ es : List UsageEvent, es.foldl (applyUsageEvent ids) [] = [] := by
  intro es
  induction es with
  | nil => rfl
  | cons e es ih =>
      rw [List.foldl_cons]
      have hstep : applyUsageEvent ids [] e = [] := by
        cases e <;> simp [applyUsageEvent, updateFirstById]
      rw [hstep, ih]

theorem two_pass (ids1 ids2 : List String) (hsub : ∀ i, i ∈ ids2 → i ∈ ids1) :
    ∀ (pts : List PropType) (es : List UsageEvent),
    es.foldl (applyUsageEvent ids2) (es.foldl (applyUsageEvent ids1) pts) =
      es.foldl (applyUsageEvent ids1) pts := by
  intro pts
  induction pts with
  | nil =>
      intro es
      rw [fold_nil_state ids1 es, fold_nil_state ids2 es]
  | cons p ps ih =>
      intro es
      rw [foldEvents_cons_split es ids1 p ps]
      rw [foldEvents_cons_split es ids2 _ _]
      have hAid : ((es.filter (targets p)).foldl (applyOne ids1) p).id = p.id :=
        applyOne_fold_id ids1 _ p
      rw [targets_congr hAid]
      congr 1
      · cases hid : p.id with
        | none =>
            rw [targets_filter_nil_of_id_none hid]
            rfl
        | some i =>
            have hall := targets_filter_rootName hid es
            rw [applyOne_fold_all_same ids2 i (es.filter (targets p)) _ hall]
            by_cases hm2 : i ∈ ids2
            · rw [if_pos hm2]
              have hm1 : i ∈ ids1 := hsub i hm2
              rw [applyOne_fold_all_same ids1 i (es.filter (targets p)) p hall, if_pos hm1]
              exact raw_fold_absorb _ p
            · rw [if_neg hm2]
      · exact ih _

/-- C8: the completion pass is idempotent: applying it a second time, over
the same tree, to a record set it has already completed leaves every record
unchanged in all fields. -/
theorem C8_completion_idempotent (es : List UsageEvent) (pts : List PropType) :
    findAndCompletePropTypes es (findAndCompletePropTypes es pts) =
      findAndCompletePropTypes es pts := by
  by_cases h1 : (candidateIds pts).isEmpty
  · have hinner : findAndCompletePropTypes es pts = pts := by
      rw [findAndCompletePropTypes, if_pos h1]
    rw [hinner]
    exact hinner
  · have hinner : findAndCompletePropTypes es pts =
        es.foldl (applyUsageEvent (candidateIds pts)) pts := by
      rw [findAndCompletePropTypes, if_neg h1]
    rw [hinner]
    by_cases h2 : (candidateIds
        (es.foldl (applyUsageEvent (candidateIds pts)) pts)).isEmpty
    · rw [findAndCompletePropTypes, if_pos h2]
    · rw [findAndCompletePropTypes, if_neg h2]
      exact two_pass (candidateIds pts) _ (candidateIds_fold_subset pts es) pts es

theorem updateFirstById_map {α : Type} (fld : PropType → α) {f : PropType → PropType}
    (hf : ∀ p, fld (f p) = fld p) :
    ∀ (l : List PropType) (c : String), (updateFirstById l c f).map fld = l.map fld := by
  intro l c
  induction l with
  | nil => rfl
  | cons p ps ih =>
      rw [updateFirstById]
      by_cases hp : p.id = some c
      · rw [if_pos hp]
        simp [hf]
      · rw [if_neg hp]
        simp [ih]

theorem applyUsageEvent_map {α : Type} (fld : PropType → α)
    (hf : ∀ p e, fld (applyEventToRecord p e) = fld p) (ids : List String) :
    ∀ (pts : List PropType) (e : UsageEvent),
      (applyUsageEvent ids pts e).map fld = pts.map fld := by
  intro pts e
  cases e with
  | callEvent c =>
      simp only [applyUsageEvent]
      split
      · exact updateFirstById_map fld (fun p => hf p (.callEvent c)) pts c
      · rfl
  | memberEvent n cr =>
      simp only [applyUsageEvent]
      split
      · exact updateFirstById_map fld (fun p => hf p (.memberEvent n cr)) pts n
      · rfl

theorem fold_events_map {α : Type} (fld : PropType → α)
    (hf : ∀ p e, fld (applyEventToRecord p e) = fld p) (ids : List String) :
    ∀ (es : List UsageEvent) (pts : List PropType),
      (es.foldl (applyUsageEvent ids) pts).map fld = pts.map fld := by
  intro es
  induction es with
  | nil => intro pts; rfl
  | cons e es ih =>
      intro pts
      rw [List.foldl_cons, ih, applyUsageEvent_map fld hf]

theorem findAndComplete_map {α : Type} (fld : PropType → α)
    (hf : ∀ p e, fld (applyEventToRecord p e) = fld p)
    (es : List UsageEvent) (pts : List PropType) :
    (findAndCompletePropTypes es pts).map fld = pts.map fld := by
  rw [findAndCompletePropTypes]
  split
  · rfl
  · exact fold_events_map fld hf _ es pts

theorem updateFirstById_get?_of_ne {c : String} {f : PropType → PropType} :
    ∀ (l : List PropType) (j : Nat) (q : PropType), l.get? j = some q → q.id ≠ some c →
      (updateFirstById l c f).get? j = some q := by
  intro l
  induction l with
  | nil => intro j q h _; simp at h
  | cons p ps ih =>
      intro j q h hq
      rw [updateFirstById]
      by_cases hp : p.id = some c
      · rw [if_pos hp]
        cases j with
        | zero =>
            exfalso
            have hpq : p = q := by simpa using h
            exact hq (hpq ▸ hp)
        | succ j => simpa using h
      · rw [if_neg hp]
        cases j with
        | zero => simpa using h
        | succ j => simpa using ih j q (by simpa using h) hq

theorem eq_of_nodup_ids :
    ∀ (pts : List PropType), (pts.filterMap PropType.id).Nodup →
      ∀ {p r : PropType} {i : String},
        p ∈ pts → r ∈ pts → p.id = some i → r.id = some i → p = r := by
  intro pts
  induction pts with
  | nil => intro _ p r i hp; simp at hp
  | cons t ts ih =>
      intro hnd p r i hp hr hpi hri
      have htail : (ts.filterMap PropType.id).Nodup := by
        rw [List.filterMap_cons] at hnd
        cases ht : t.id with
        | none => rwa [ht] at hnd
        | some v =>
            rw [ht] at hnd
            exact (List.nodup_cons.mp hnd).2
      rcases List.mem_cons.mp hp with rfl | hp' <;> rcases List.mem_cons.mp hr with rfl | hr'
      · rfl
      · exfalso
        have hmem : i ∈ ts.filterMap PropType.id := List.mem_filterMap.mpr ⟨r, hr', hri⟩
        rw [List.filterMap_cons, hpi] at hnd
        exact (List.nodup_cons.mp hnd).1 hmem
      · exfalso
        have hmem : i ∈ ts.filterMap PropType.id := List.mem_filterMap.mpr ⟨p, hp', hpi⟩
        rw [List.filterMap_cons, hri] at hnd
        exact (List.nodup_cons.mp hnd).1 hmem
      · exact ih htail hp' hr' hpi hri

theorem fold_get?_noncandidate (ids : List String) :
    ∀ (es : List UsageEvent) (pts : List PropType) (j : Nat) (p : PropType),
      pts.get? j = some p → (∀ c ∈ ids, p.id ≠ some c) →
      (es.foldl (applyUsageEvent ids) pts).get? j = some p := by
  intro es
  induction es with
  | nil => intro pts j p h _; exact h
  | cons e es ih =>
      intro pts j p h hne
      rw [List.foldl_cons]
      refine ih _ j p ?_ hne
      cases e with
      | callEvent c =>
          simp only [applyUsageEvent]
          by_cases hc : c ∈ ids
          · rw [if_pos hc]
            exact updateFirstById_get?_of_ne pts j p h (hne c hc)
          · rwa [if_neg hc]
      | memberEvent n cr =>
          simp only [applyUsageEvent]
          by_cases hc : n ∈ ids
          · rw [if_pos hc]
            exact updateFirstById_get?_of_ne pts j p h (hne n hc)
          · rwa [if_neg hc]

def c9NonCandidate : PropType := .mk "p" "string" false none (some "x") none []

def c9Candidate : PropType := .mk "q" "any" false none (some "x") none []

/-- C9 counterexample: when two records share the binding id x, the first
with that id (here a string-kinded record, not a completion candidate) is
the one the visitors find and mutate: a call event on x turns its kind into
func, so a record whose kind on entry was neither any nor shape is changed. -/
theorem C9_first_id_mutation_counterexample :
    (findAndCompletePropTypes [.callEvent "x"] [c9NonCandidate, c9Candidate]).get? 0
      ≠ some c9NonCandidate ∧
    c9NonCandidate.id.isSome = true ∧
    c9NonCandidate.type ≠ "any" ∧ c9NonCandidate.type ≠ "shape" := by
  refine ⟨?_, rfl, by decide, by decide⟩
  intro h
  have h2 := congrArg (Option.map PropType.type) h
  have e1 : ((findAndCompletePropTypes [.callEvent "x"]
      [c9NonCandidate, c9Candidate]).get? 0).map PropType.type = some "func" := rfl
  rw [e1] at h2
  simp [c9NonCandidate, PropType.type] at h2

/-- C9 (amended): the completion pass never changes the name, isRequired,
defaultValue or id field of any record; when no record qualifies as a
candidate the input list is returned unchanged; and provided no two records
share a binding id, a record that is not a candidate (no binding id, or a
kind other than any and shape on entry) is returned unchanged at its
position.  Without the distinct-id proviso the visitors mutate the first
record carrying the id, which need not be the candidate, as the
counterexample shows. -/
theorem C9_completion_frame_amended :
    (∀ (es : List UsageEvent) (pts : List PropType),
      (findAndCompletePropTypes es pts).map PropType.name = pts.map PropType.name ∧
      (findAndCompletePropTypes es pts).map PropType.isRequired
        = pts.map PropType.isRequired ∧
      (findAndCompletePropTypes es pts).map PropType.defaultValue
        = pts.map PropType.defaultValue ∧
      (findAndCompletePropTypes es pts).map PropType.id = pts.map PropType.id) ∧
    (∀ (es : List UsageEvent) (pts : List PropType),
      (pts.filterMap PropType.id).Nodup →
      ∀ (j : Nat) (p : PropType), pts.get? j = some p →
        ¬(p.id.isSome = true ∧ (p.type = "any" ∨ p.type = "shape")) →
        (findAndCompletePropTypes es pts).get? j = some p) ∧
    (∀ (es : List UsageEvent) (pts : List PropType),
      candidateIds pts = [] → findAndCompletePropTypes es pts = pts) := by
  refine ⟨?_, ?_, ?_⟩
  · intro es pts
    exact ⟨findAndComplete_map PropType.name applyEventToRecord_name es pts,
      findAndComplete_map PropType.isRequired applyEventToRecord_isRequired es pts,
      findAndComplete_map PropType.defaultValue applyEventToRecord_defaultValue es pts,
      findAndComplete_map PropType.id applyEventToRecord_id es pts⟩
  · intro es pts hnd j p hj hncand
    rw [findAndCompletePropTypes]
    split
    · exact hj
    · refine fold_get?_noncandidate _ es pts j p hj ?_
      intro c hc hpc
      obtain ⟨r, hr, hrid, hrty⟩ := mem_candidateIds.mp hc
      have hp : p ∈ pts := List.get?_mem hj
      have hpr : p = r := eq_of_nodup_ids pts hnd hp hr hpc hrid
      exact hncand ⟨by rw [hpc]; rfl, by rw [hpr]; exact hrty⟩
  · intro es pts h
    rw [findAndCompletePropTypes, if_pos (by rw [h]; rfl)]

theorem C9_completion_frame_amended_witness :
    ((findAndCompletePropTypes [.callEvent "x"] [c9NonCandidate]).map PropType.name
      = [c9NonCandidate].map PropType.name) ∧
    ((findAndCompletePropTypes [.callEvent "x"] [c9NonCandidate]).get? 0
      = some c9NonCandidate) ∧
    (findAndCompletePropTypes [.callEvent "x"] [c9NonCandidate] = [c9NonCandidate]) :=
  ⟨(C9_completion_frame_amended.1 [.callEvent "x"] [c9NonCandidate]).1,
    C9_completion_frame_amended.2.1 [.callEvent "x"] [c9NonCandidate] (by decide) 0
      c9NonCandidate rfl (by decide),
    C9_completion_frame_amended.2.2 [.callEvent "x"] [c9NonCandidate] (by decide)⟩

/-! The component locator (findComponentNode). -/

/-- A program tree node for the component locator: class declarations,
function declarations, arrow function expressions, variable declarators
(carrying the bound identifier name when the pattern is an identifier, with
the initializer among the children), and an opaque node kind. -/
inductive JsNode : Type where
  | classDecl (idName : String) (children : List JsNode)
  | funcDecl (idName : Option String) (children : List JsNode)
  | arrowFunc (children : List JsNode)
  | varDeclarator (idName : Option String) (children : List JsNode)
  | otherNode (children : List JsNode)
deriving Repr

def JsNode.children : JsNode → List JsNode
  | .classDecl _ cs => cs
  | .funcDecl _ cs => cs
  | .arrowFunc cs => cs
  | .varDeclarator _ cs => cs
  | .otherNode cs => cs

mutual

/-- Embeds the visitor of findComponentNode on one node: a matching class
declaration, named function declaration, or arrow function expression whose
parent is a variable declarator binding the name overwrites the candidate,
and the traversal always continues into the children (pre-order). -/
def visitNode (name : String) (pv : Option String) (acc : Option JsNode) :
    JsNode → Option JsNode
  | .classDecl cn cs =>
      visitList name none (if cn == name then some (.classDecl cn cs) else acc) cs
  | .funcDecl fn cs =>
      visitList name none (if fn == some name then some (.funcDecl fn cs) else acc) cs
  | .arrowFunc cs =>
      visitList name none (if pv == some name then some (.arrowFunc cs) else acc) cs
  | .varDeclarator vn cs => visitList name vn acc cs
  | .otherNode cs => visitList name none acc cs

/-- The visitor folded over a child list, left to right. -/
def visitList (name : String) (pv : Option String) (acc : Option JsNode) :
    List JsNode → Option JsNode
  | [] => acc
  | c :: cs => visitList name pv (visitNode name pv acc c) cs

end

mutual

/-- The pre-order list of nodes the visitor of findComponentNode matches. -/
def collectNode (name : String) (pv : Option String) : JsNode → List JsNode
  | .classDecl cn cs =>
      (if cn == name then [JsNode.classDecl cn cs] else []) ++ collectList name none cs
  | .funcDecl fn cs =>
      (if fn == some name then [JsNode.funcDecl fn cs] else []) ++ collectList name none cs
  | .arrowFunc cs =>
      (if pv == some name then [JsNode.arrowFunc cs] else []) ++ collectList name none cs
  | .varDeclarator vn cs => collectList name vn cs
  | .otherNode cs => collectList name none cs

def collectList (name : String) (pv : Option String) : List JsNode → List JsNode
  | [] => []
  | c :: cs => collectNode name pv c ++ collectList name pv cs

end

/-- The last element of the list if any, otherwise the accumulator: the
state left by an overwrite-and-continue visitor. -/
def lastOr (l : List JsNode) (acc : Option JsNode) : Option JsNode :=
  l.foldl (fun _ m => some m) acc

theorem lastOr_nil (acc : Option JsNode) : lastOr [] acc = acc := rfl

theorem lastOr_append (a b : List JsNode) (acc : Option JsNode) :
    lastOr (a ++ b) acc = lastOr b (lastOr a acc) := by
  simp [lastOr, List.foldl_append]

theorem lastOr_if_single (c : Prop) [Decidable c] (m : JsNode) (acc : Option JsNode) :
    lastOr (if c then [m] else []) acc = if c then some m else acc := by
  split <;> rfl

theorem lastOr_getLast? (l : List JsNode) :
    ∀ acc : Option JsNode, lastOr l acc =
      match l.getLast? with
      | some m => some m
      | none => acc := by
  induction l with
  | nil => intro acc; rfl
  | cons m ms ih =>
      intro acc
      have hstep : lastOr (m :: ms) acc = lastOr ms (some m) := rfl
      rw [hstep, ih (some m)]
      cases ms with
      | nil => rfl
      | cons x xs =>
          rw [List.getLast?_cons_cons]
          cases h : (x :: xs).getLast? with
          | some k => rfl
          | none => exact absurd (List.getLast?_eq_none.mp h) (by simp)

mutual

theorem visitNode_lastOr (name : String) :
    ∀ (pv : Option String) (acc : Option JsNode) (n : JsNode),
      visitNode name pv acc n = lastOr (collectNode name pv n) acc := by
  intro pv acc n
  cases n with
  | classDecl cn cs =>
      rw [visitNode, collectNode, lastOr_append, lastOr_if_single,
        visitList_lastOr name none _ cs]
  | funcDecl fn cs =>
      rw [visitNode, collectNode, lastOr_append, lastOr_if_single,
        visitList_lastOr name none _ cs]
  | arrowFunc cs =>
      rw [visitNode, collectNode, lastOr_append, lastOr_if_single,
        visitList_lastOr name none _ cs]
  | varDeclarator vn cs =>
      rw [visitNode, collectNode, visitList_lastOr name vn acc cs]
  | otherNode cs =>
      rw [visitNode, collectNode, visitList_lastOr name none acc cs]

theorem visitList_lastOr (name : String) :
    ∀ (pv : Option String) (acc : Option JsNode) (cs : List JsNode),
      visitList name pv acc cs = lastOr (collectList name pv cs) acc := by
  intro pv acc cs
  cases cs with
  | nil => rfl
  | cons c cs =>
      rw [visitList, collectList, lastOr_append, ← visitNode_lastOr name pv acc c,
        visitList_lastOr name pv _ cs]

end

/-- Embeds findComponentNode: the visitor retains the last pre-order match
and the promise is rejected with the component-not-found error when no
candidate exists. -/
def findComponentNode (ast : JsNode) (name : String) : Except String JsNode :=
  match visitNode name none none ast with
  | some n => .ok n
  | none => .error "The selected text is not a valid React Component !"

def c2First : JsNode := .classDecl "Foo" []

def c2Second : JsNode := .classDecl "Foo" [.otherNode []]

def c2Tree : JsNode := .otherNode [c2First, c2Second]

/-- C2 counterexample: with two class declarations of the same name in one
tree, the visitor overwrites its candidate on every match and keeps
traversing, so the locator returns the second (last) pre-order match, not
the first one. -/
theorem C2_first_match_counterexample :
    findComponentNode c2Tree "Foo" = .ok c2Second ∧
    (collectNode "Foo" none c2Tree).head? = some c2First ∧
    c2First ≠ c2Second := by
  refine ⟨rfl, rfl, ?_⟩
  intro h
  have h2 := congrArg JsNode.children h
  simp [c2First, c2Second, JsNode.children] at h2

/-- C2 (amended): the component locator returns the node defining the name
as a class declaration, a named function declaration, or an arrow or
function expression bound to a variable of that name; when several
candidates match, the LAST pre-order match is returned (each match
overwrites the previous candidate and traversal continues), which is still
deterministic over re-runs on the same tree, and with no candidate the
operation fails with the component-not-found error. -/
theorem C2_locator_last_preorder_match (ast : JsNode) (name : String) :
    findComponentNode ast name =
      match (collectNode name none ast).getLast? with
      | some m => .ok m
      | none => .error "The selected text is not a valid React Component !" := by
  unfold findComponentNode
  rw [visitNode_lastOr name none none ast, lastOr_getLast?]
  cases h : (collectNode name none ast).getLast? <;> rfl

/-! Byte-range splicing in generatePropTypes (bin/cli.js). -/

/-- Embeds replaceCode of bin/cli.js: the document up to the start of the
byte range, the new code, then the document from the end of the range. -/
def replaceCode (doc : List Char) (range : Nat × Nat) (code : List Char) : List Char :=
  doc.take range.1 ++ code ++ doc.drop range.2

/-- Embeds insertCode of bin/cli.js: the document up to the position, the
new code, then the rest of the document. -/
def insertCode (doc : List Char) (position : Nat) (code : List Char) : List Char :=
  doc.take position ++ code ++ doc.drop position

/-- The node kind of an existing declaration found by the declaration
locator. -/
inductive PTNodeKind : Type where
  | assignmentExpression
  | classProperty
deriving Repr, DecidableEq

/-- The component node kinds the locator can return. -/
inductive ComponentKind : Type where
  | classDeclaration
  | functionDeclaration
  | arrowFunctionExpression
deriving Repr, DecidableEq

/-- The component node facts the splicing step of generatePropTypes reads:
its kind, its byte range, and the byte range of a class body when there is
one. -/
structure ComponentInfo : Type where
  kind : ComponentKind
  range : Nat × Nat
  bodyRange : Option (Nat × Nat)

/-- Embeds the code-style resolution of generatePropTypes (bin/cli.js lines
121-130): an existing assignment declaration forces the default style, an
existing static class property forces the class style, a function-style
component without an existing declaration forces the default style, and
otherwise the configured style is kept unchanged - nothing selects the
class style automatically for a class component. -/
def resolveCodeStyle (ptNode : Option (PTNodeKind × (Nat × Nat))) (c : ComponentInfo)
    (configStyle : Option String) : Option String :=
  match ptNode with
  | some (.assignmentExpression, _) => some "default"
  | some (.classProperty, _) => some "class"
  | none =>
      match c.kind with
      | .functionDeclaration => some "default"
      | .arrowFunctionExpression => some "default"
      | .classDeclaration => configStyle

/-- Embeds the splice decision of generatePropTypes (bin/cli.js lines
131-145): an existing declaration node has exactly its byte range replaced
by the rendered code; with no existing node, the class style inserts the
wrapped code just inside the opening brace of the class body (its start
offset plus one) when a body range exists and writes nothing otherwise, and
every other style inserts the code after the end offset of the component
range. -/
def spliceGeneratedCode (doc : List Char) (ptNode : Option (PTNodeKind × (Nat × Nat)))
    (c : ComponentInfo) (configStyle : Option String) (code : List Char) :
    Option (List Char) :=
  match ptNode with
  | some (_, range) => some (replaceCode doc range code)
  | none =>
      if resolveCodeStyle none c configStyle = some "class" then
        match c.bodyRange with
        | some br => some (insertCode doc (br.1 + 1) (['\n', ' ', ' '] ++ code ++ ['\n']))
        | none => none
      else
        some (insertCode doc c.range.2 (['\n', '\n'] ++ code))

def c6ClassComp : ComponentInfo := ⟨.classDeclaration, (0, 30), some (10, 20)⟩

/-- C6 counterexample: a class component with no existing declaration under
the default configuration (no configured code style) is spliced after the
closing offset of the component range, not inside the opening brace of the
class body, because nothing selects the class style automatically for class
components. -/
theorem C6_class_insertion_counterexample :
    spliceGeneratedCode (List.replicate 30 'a') none c6ClassComp none ['C']
      = some (insertCode (List.replicate 30 'a') 30 (['\n', '\n'] ++ ['C'])) ∧
    spliceGeneratedCode (List.replicate 30 'a') none c6ClassComp none ['C']
      ≠ some (insertCode (List.replicate 30 'a') 11 (['\n', ' ', ' '] ++ ['C'] ++ ['\n'])) := by
  refine ⟨rfl, ?_⟩
  decide

/-- C6 (amended): an existing declaration node has exactly its byte range
replaced by the new code; with no existing node, a style other than class -
which is always the case for function-style components, whose style is
forced to default - inserts the code immediately after the closing offset of
the component range, and the code is inserted just inside the opening brace
of the class body only when the effective style is class, which for class
components requires the configuration to say so. -/
theorem C6_splice_positions_amended :
    (∀ (doc : List Char) (k : PTNodeKind) (range : Nat × Nat) (c : ComponentInfo)
        (config : Option String) (code : List Char),
      spliceGeneratedCode doc (some (k, range)) c config code
        = some (doc.take range.1 ++ code ++ doc.drop range.2)) ∧
    (∀ (doc : List Char) (c : ComponentInfo) (config : Option String) (code : List Char),
      resolveCodeStyle none c config ≠ some "class" →
      spliceGeneratedCode doc none c config code
        = some (doc.take c.range.2 ++ (['\n', '\n'] ++ code) ++ doc.drop c.range.2)) ∧
    (∀ (doc : List Char) (c : ComponentInfo) (config : Option String) (code : List Char)
        (br : Nat × Nat),
      resolveCodeStyle none c config = some "class" → c.bodyRange = some br →
      spliceGeneratedCode doc none c config code
        = some (doc.take (br.1 + 1) ++ (['\n', ' ', ' '] ++ code ++ ['\n'])
            ++ doc.drop (br.1 + 1))) ∧
    (∀ (c : ComponentInfo) (config : Option String),
      c.kind = .functionDeclaration ∨ c.kind = .arrowFunctionExpression →
      resolveCodeStyle none c config = some "default") := by
  refine ⟨?_, ?_, ?_, ?_⟩
  · intro doc k range c config code
    rfl
  · intro doc c config code h
    simp only [spliceGeneratedCode]
    rw [if_neg h]
    rfl
  · intro doc c config code br h hbr
    simp only [spliceGeneratedCode]
    rw [if_pos h, hbr]
    rfl
  · intro c config h
    rcases h with h | h <;> simp [resolveCodeStyle, h]

theorem C6_splice_positions_amended_witness :
    spliceGeneratedCode ['a', 'b', 'c', 'd'] (some (.assignmentExpression, (1, 3)))
        ⟨.functionDeclaration, (0, 4), none⟩ none ['X']
      = some (['a'] ++ ['X'] ++ ['d']) ∧
    spliceGeneratedCode ['a', 'b', 'c', 'd'] none
        ⟨.functionDeclaration, (0, 4), none⟩ none ['X']
      = some (['a', 'b', 'c', 'd'] ++ (['\n', '\n'] ++ ['X']) ++ []) ∧
    spliceGeneratedCode ['a', 'b', 'c', 'd'] none
        ⟨.classDeclaration, (0, 4), some (1, 3)⟩ (some "class") ['X']
      = some (['a', 'b'] ++ (['\n', ' ', ' '] ++ ['X'] ++ ['\n']) ++ ['c', 'd']) ∧
    resolveCodeStyle none ⟨.functionDeclaration, (0, 4), none⟩ (some "class")
      = some "default" := by
  refine ⟨?_, ?_, ?_, ?_⟩
  · exact C6_splice_positions_amended.1 ['a', 'b', 'c', 'd'] .assignmentExpression (1, 3)
      ⟨.functionDeclaration, (0, 4), none⟩ none ['X']
  · exact C6_splice_positions_amended.2.1 ['a', 'b', 'c', 'd']
      ⟨.functionDeclaration, (0, 4), none⟩ none ['X'] (by decide)
  · exact C6_splice_positions_amended.2.2.1 ['a', 'b', 'c', 'd']
      ⟨.classDeclaration, (0, 4), some (1, 3)⟩ (some "class") ['X'] (1, 3) rfl rfl
  · exact C6_splice_positions_amended.2.2.2 ⟨.functionDeclaration, (0, 4), none⟩
      (some "class") (Or.inl rfl)

/-! The project directory scan (bin/cli.js, getProjectJavascriptFiles). -/

/-- The file system the project scan runs over: a path names a directory
with entry names, or a plain file. -/
inductive FsEntry : Type where
  | file
  | dir (entries : List String)

/-- The extension test of getProjectJavascriptFiles. -/
def isJsFile (p : String) : Bool :=
  p.endsWith ".js" || p.endsWith ".jsx" || p.endsWith ".ts" || p.endsWith ".tsx"

/-- One iteration of the directory loop, parameterized by the value of the
recursive call: the files gathered so far extended with the outcome of
scanning the recursed path. -/
def scanStep (recResult : Option (List String)) (acc : Option (List String))
    (entry : String) : Option (List String) :=
  acc.bind fun files => recResult.map fun more => files ++ more

/-- Embeds getProjectJavascriptFiles of bin/cli.js as a fuel-indexed
unfolding, none meaning the recursion is still running when the fuel runs
out: for a directory the loop body recurses once per entry on the same path,
exactly as the source does, and for a non-directory the path itself is
returned when it matches the extension test. -/
def getProjectJavascriptFiles (fs : String → FsEntry) : Nat → String → Option (List String)
  | 0, _ => none
  | fuel + 1, p =>
      match fs p with
      | .dir entries =>
          entries.foldl (scanStep (getProjectJavascriptFiles fs fuel p)) (some [])
      | .file => some (if isJsFile p then [p] else [])

theorem scanStep_rec_none (acc : Option (List String)) (entry : String) :
    scanStep none acc entry = none := by
  unfold scanStep
  cases acc <;> rfl

theorem foldl_scanStep_none (r : Option (List String)) :
    ∀ l : List String, l.foldl (scanStep r) none = none := by
  intro l
  induction l with
  | nil => rfl
  | cons x xs ih =>
      rw [List.foldl_cons]
      have h0 : scanStep r none x = none := rfl
      rw [h0, ih]

/-- C10: on a directory with at least one entry the scan never finishes for
any amount of fuel, because the recursive call is applied to the same
directory path rather than to the entry, while a non-directory path returns
itself when the extension matches and an empty directory returns the empty
list. -/
theorem C10_scan_divergence :
    (∀ (fs : String → FsEntry) (p e : String) (es : List String),
      fs p = .dir (e :: es) → ∀ fuel, getProjectJavascriptFiles fs fuel p = none) ∧
    (∀ (fs : String → FsEntry) (p : String), fs p = .file → ∀ fuel,
      getProjectJavascriptFiles fs (fuel + 1) p
        = some (if isJsFile p then [p] else [])) ∧
    (∀ (fs : String → FsEntry) (p : String), fs p = .dir [] → ∀ fuel,
      getProjectJavascriptFiles fs (fuel + 1) p = some []) := by
  refine ⟨?_, ?_, ?_⟩
  · intro fs p e es h fuel
    induction fuel with
    | zero => rfl
    | succ n ih =>
        show (match fs p with
          | .dir entries =>
              entries.foldl (scanStep (getProjectJavascriptFiles fs n p)) (some [])
          | .file => some (if isJsFile p then [p] else [])) = none
        rw [h]
        show (e :: es).foldl (scanStep (getProjectJavascriptFiles fs n p)) (some []) = none
        rw [ih, List.foldl_cons, scanStep_rec_none, foldl_scanStep_none]
  · intro fs p h fuel
    show (match fs p with
      | .dir entries =>
          entries.foldl (scanStep (getProjectJavascriptFiles fs fuel p)) (some [])
      | .file => some (if isJsFile p then [p] else [])) = _
    rw [h]
  · intro fs p h fuel
    show (match fs p with
      | .dir entries =>
          entries.foldl (scanStep (getProjectJavascriptFiles fs fuel p)) (some [])
      | .file => some (if isJsFile p then [p] else [])) = _
    rw [h]
    rfl

theorem C10_scan_divergence_witness :
    getProjectJavascriptFiles (fun _ => .dir ["a"]) 5 "d" = none ∧
    getProjectJavascriptFiles (fun _ => .file) 1 "a.js"
      = some (if isJsFile "a.js" then ["a.js"] else []) ∧
    getProjectJavascriptFiles (fun _ => .dir []) 1 "d" = some [] :=
  ⟨C10_scan_divergence.1 (fun _ => .dir ["a"]) "d" "a" [] rfl 5,
    C10_scan_divergence.2.1 (fun _ => .file) "a.js" rfl 0,
    C10_scan_divergence.2.2 (fun _ => .dir []) "d" rfl 0⟩
